import Mathlib

/-!
# Big5 table generator (`encoding/traditionalchinese/maketables.go`)

A shallow embedding of the table compiler in `main`:

* the ingestion loop that fills the dense `mapping` (Big5 pointer → code point) and
  `reverse` (code point → packed lead/trail byte pair) arrays;
* the scan over `reverse` that collects the intervals of the encode tables;
* the ordering of the intervals by `byDecreasingLength`;
* the loops that print the `decode` literal and one `encodeN` literal per interval.

Go's fixed-size arrays are modelled as total functions `Nat → Nat` together with their
lengths; a write outside the array is a run-time panic and is modelled as an error
result.  `uint16` arithmetic is written with an explicit `% 65536`.  The loop variables
`low`, `high` are Go `int`s that start at `-1`, so they are `Int` here.
-/

namespace Maketables

/-! ## Ingestion -/

/-- Length of `mapping := [65536]uint32{}`. -/
def mappingLen : Nat := 65536

/-- Length of `reverse := [65536 * 4]uint16{}`. -/
def reverseLen : Nat := 65536 * 4

/-- One parsed record `"%d 0x%x"`: `x` is scanned into a `uint16`, `y` into a `uint32`. -/
structure Pair where
  x : Nat
  y : Nat
deriving DecidableEq, Repr

/-- The two accumulators of the ingestion loop. -/
structure Tables where
  mapping : Nat → Nat
  reverse : Nat → Nat

/-- Zero-initialised arrays, as produced by the composite literals `[...]T{}`. -/
def Tables.empty : Tables := ⟨fun _ => 0, fun _ => 0⟩

/-- The two ways the ingestion loop aborts the program. -/
inductive IngestError where
  /-- The call `log.Fatalf("Big5 code %d is out of range", x)`. -/
  | outOfRange (x : Nat)
  /-- The run-time panic of `reverse[y]` when `y` is not below `len(reverse)`. -/
  | indexPanic (y : Nat)
deriving DecidableEq, Repr

/-- The value stored by `reverse[y] = (0x81+c0)<<8 | c1`, computed on `uint16`s:
`c0, c1 := x/157, x%157`, then `c1 += 0x40` if `c1 < 0x3f` and `c1 += 0x62` otherwise. -/
def pack (x : Nat) : Nat :=
  let c0 := x / 157
  let c1 := x % 157
  let c1 := if c1 < 0x3f then (c1 + 0x40) % 65536 else (c1 + 0x62) % 65536
  ((((0x81 + c0) % 65536) <<< 8) % 65536) ||| c1

/-- One iteration of the `for scanner.Scan()` loop on an already parsed record.
The test `x < 0` of the source can never hold for a `uint16`. -/
def ingestStep (t : Tables) (p : Pair) : Except IngestError Tables :=
  if 126 * 157 ≤ p.x then
    .error (.outOfRange p.x)
  else if reverseLen ≤ p.y then
    .error (.indexPanic p.y)
  else
    .ok { mapping := Function.update t.mapping p.x p.y
          reverse := Function.update t.reverse p.y (pack p.x) }

/-- The ingestion loop over the parsed records, in input order. -/
def ingest : Tables → List Pair → Except IngestError Tables
  | t, [] => .ok t
  | t, p :: ps =>
    match ingestStep t p with
    | .error e => .error e
    | .ok t1 => ingest t1 ps

/-! ## Interval extraction -/

/-- The source's `interval`: a half-open interval `[low, high)`. -/
structure interval where
  low : Int
  high : Int
deriving DecidableEq, Repr

/-- The method `func (i interval) len() int`. -/
def interval.len (i : interval) : Int := i.high - i.low

/-- Variables of the extraction loop: `intervals`, `low`, `high`. -/
structure ScanState where
  intervals : List interval
  low : Int
  high : Int
deriving DecidableEq, Repr

/-- The initial values `intervals := []interval(nil)` and `low, high := -1, -1`. -/
def scanInit : ScanState := ⟨[], -1, -1⟩

/-- Body of `for i, v := range reverse` for index `i` holding value `v`. -/
def scanStep (separation : Int) (s : ScanState) (i : Nat) (v : Nat) : ScanState :=
  if v = 0 then s
  else if s.low < 0 then
    { s with low := i, high := i + 1 }
  else if (i : Int) - s.high ≥ separation then
    { intervals := if s.high ≥ 0 then s.intervals ++ [⟨s.low, s.high⟩] else s.intervals
      low := i
      high := i + 1 }
  else
    { s with high := i + 1 }

/-- State of the extraction loop after the indices `0, …, n - 1` have been visited. -/
def scanLoop (reverse : Nat → Nat) (separation : Int) : Nat → ScanState
  | 0 => scanInit
  | n + 1 => scanStep separation (scanLoop reverse separation n) n (reverse n)

/-- The interval list after the loop over a table of length `n` and the final
`if high >= 0 { intervals = append(intervals, interval{low, high}) }`. -/
def scanIntervals (reverse : Nat → Nat) (separation : Int) (n : Nat) : List interval :=
  let s := scanLoop reverse separation n
  if s.high ≥ 0 then s.intervals ++ [⟨s.low, s.high⟩] else s.intervals

/-- The constant `const separation = 1024`. -/
def separation : Int := 1024

/-- The interval list the program builds from its `reverse` array. -/
def extractIntervals (reverse : Nat → Nat) : List interval :=
  scanIntervals reverse separation reverseLen

/-! ## Ordering of the intervals -/

/-- The comparison `byDecreasingLength.Less`, on the two elements it indexes. -/
def byDecreasingLength.Less (a b : interval) : Bool := decide (a.len > b.len)

/-- What `sort.Sort` of the Go standard library leaves behind in the slice it is given:
it has only swapped elements, and `sort.IsSorted` holds, that is, no element is `Less`
than its left neighbour.  The library function is not part of the repository, so the sort
enters as a parameter `sortFn` constrained by this contract; the library documents that
the order of equal elements is not guaranteed. -/
structure SortContract (less : interval → interval → Bool)
    (sortFn : List interval → List interval) : Prop where
  perm : ∀ l, List.Perm (sortFn l) l
  ordered : ∀ l, List.Chain' (fun a b => less b a = false) (sortFn l)

/-- A sort that meets the contract: insertion sort in which an interval moves left only
past strictly shorter ones. -/
def insertionSort (l : List interval) : List interval :=
  List.insertionSort (fun a b => b.len ≤ a.len) l

/-! ## Closed forms and predicates used in the statements -/

/-- Closed form of the lead byte of pointer `x`: `0x81 + x/157`. -/
def leadByte (x : Nat) : Nat := 0x81 + x / 157

/-- Closed form of the trail byte of pointer `x`: `x%157 + 0x40` below the split point
`0x3f`, `x%157 + 0x62` from it on. -/
def trailByte (x : Nat) : Nat := if x % 157 < 0x3f then x % 157 + 0x40 else x % 157 + 0x62

/-- Membership test `low <= i < high` of an index in an interval. -/
def interval.contains (iv : interval) (i : Nat) : Bool := decide (iv.low ≤ i ∧ (i : Int) < iv.high)

/-- Relation between an interval and a later one of the scan. -/
def Apart (sep : Int) (a b : interval) : Prop := a.high ≤ b.low ∧ sep ≤ b.low - a.high

/-- An interval that the scan may hold or have closed: its ends sit on non-zero entries
and no run of zeros inside it reaches the separation. -/
structure GoodInterval (rev : Nat → Nat) (sep : Int) (iv : interval) : Prop where
  low_nonneg : 0 ≤ iv.low
  low_lt_high : iv.low < iv.high
  low_nz : ∀ l : Nat, (l : Int) = iv.low → rev l ≠ 0
  last_nz : ∀ h : Nat, (h : Int) + 1 = iv.high → rev h ≠ 0
  merge : ∀ i j : Nat, iv.low ≤ i → i < j → (j : Int) < iv.high → rev i ≠ 0 → rev j ≠ 0 →
    (∀ k, i < k → k < j → rev k = 0) → (j : Int) - (i + 1) < sep

/-- Loop invariant of the extraction scan after `n` indices. -/
structure ScanInv (rev : Nat → Nat) (sep : Int) (n : Nat) (s : ScanState) : Prop where
  idle : s.low < 0 → s = scanInit ∧ ∀ k < n, rev k = 0
  cur_good : 0 ≤ s.low → GoodInterval rev sep ⟨s.low, s.high⟩
  cur_high : s.high ≤ n
  tail_zero : ∀ k : Nat, s.high ≤ k → k < n → 0 ≤ s.low → rev k = 0
  closed_good : ∀ iv ∈ s.intervals, GoodInterval rev sep iv
  closed_before : ∀ iv ∈ s.intervals, iv.high ≤ s.low ∧ sep ≤ s.low - iv.high
  chain : s.intervals.Pairwise (Apart sep)
  cover : ∀ k < n, rev k ≠ 0 →
    (∃ iv ∈ s.intervals, iv.low ≤ k ∧ (k : Int) < iv.high) ∨ (s.low ≤ k ∧ (k : Int) < s.high)

/-- The `reverse` array after the three records of the round-trip scenario. -/
def roundTripReverse : Nat → Nat :=
  Function.update (Function.update (Function.update (fun _ => 0) 0x4E00 (pack 0))
    0x4E01 (pack 1)) 0x4E02 (pack 200)

/-! ## Emission of the tables -/

/-- The keyed elements `i: v` printed by the first `n` iterations of
`for i, v := range mapping`: one for every non-zero `v`, in the order printed. -/
def emitDecodeLoop (mapping : Nat → Nat) : Nat → List (Nat × Nat)
  | 0 => []
  | n + 1 =>
    if mapping n ≠ 0 then emitDecodeLoop mapping n ++ [(n, mapping n)]
    else emitDecodeLoop mapping n

/-- The elements of the `decode` literal the program prints for its `mapping` array. -/
def emitDecode (mapping : Nat → Nat) : List (Nat × Nat) := emitDecodeLoop mapping mappingLen

/-- The read `reverse[j]` of an array of length `n` at an `int` index: outside the array
the program panics, which is `none` here. -/
def readAt (tbl : Nat → Nat) (n : Nat) (j : Int) : Option Nat :=
  if 0 ≤ j ∧ j < n then some (tbl j.toNat) else none

/-- The keyed elements `j-low: x` printed by the first `c` iterations of
`for j := v.low; j < v.high; j++`; the key is recorded by its value `j - low`. -/
def emitEncodeLoop (reverse : Nat → Nat) (n : Nat) (low : Int) :
    Nat → Option (List (Int × Nat))
  | 0 => some []
  | c + 1 =>
    match emitEncodeLoop reverse n low c with
    | none => none
    | some acc =>
      match readAt reverse n (low + c) with
      | none => none
      | some x => if x = 0 then some acc else some (acc ++ [((low + c) - low, x)])

/-- The elements of the literal `encodeN` printed for interval `v`: the loop runs
`high - low` times when that is positive and not at all otherwise. -/
def emitEncode (reverse : Nat → Nat) (n : Nat) (v : interval) : Option (List (Int × Nat)) :=
  emitEncodeLoop reverse n v.low (v.high - v.low).toNat

/-- The second `for i, v := range intervals` loop: bounds and literal of every sub-table,
in the order of the sorted slice. -/
def emitEncodeTables (reverse : Nat → Nat) (n : Nat) :
    List interval → Option (List (interval × List (Int × Nat)))
  | [] => some []
  | v :: vs =>
    match emitEncode reverse n v with
    | none => none
    | some es =>
      match emitEncodeTables reverse n vs with
      | none => none
      | some rest => some ((v, es) :: rest)

/-- Meaning of a printed Go array literal `[...]T{k: v, ...}` at index `k`: the value of
the element keyed `k`, and zero when no element has that key. -/
def literalAt {α : Type} [DecidableEq α] (entries : List (α × Nat)) (k : α) : Nat :=
  match entries.find? (fun e => decide (e.1 = k)) with
  | some e => e.2
  | none => 0

/-- Length of a printed Go array literal `[...]T{k: v, ...}`: one more than its largest
key, zero when it has no element. -/
def literalLen (entries : List (Int × Nat)) : Int :=
  entries.foldl (fun m e => max m (e.1 + 1)) 0

/-- The elements of a sub-table as the specification words them: `(j - low, reverse[j])`
for `j` from `low` to `high - 1` with `reverse[j] != 0`. -/
def encodeEntriesSpec (reverse : Nat → Nat) (v : interval) : List (Int × Nat) :=
  ((List.range' v.low.toNat (v.high - v.low).toNat).filter (fun j => decide (reverse j ≠ 0))).map
    (fun (j : Nat) => ((j : Int) - v.low, reverse j))

/-- The elements of the decode table as the specification words them: `(i, mapping[i])`
for `i` in increasing order with `mapping[i] != 0`, over a table of length `n`. -/
def decodeEntriesSpec (mapping : Nat → Nat) (n : Nat) : List (Nat × Nat) :=
  ((List.range n).filter (fun i => decide (mapping i ≠ 0))).map (fun i => (i, mapping i))

/-! ## The sort interface -/

/-- The method `byDecreasingLength.Len`. -/
def byDecreasingLength.Len (b : List interval) : Nat := b.length

/-- The method `byDecreasingLength.Swap`: `b[i], b[j] = b[j], b[i]`; an index outside the
slice is a run-time panic, `none` here. -/
def byDecreasingLength.Swap (b : List interval) (i j : Nat) : Option (List interval) :=
  match b[i]?, b[j]? with
  | some x, some y => some ((b.set i y).set j x)
  | _, _ => none

/-- A run of `Swap` calls on the slice, in order. -/
def applySwaps : List interval → List (Nat × Nat) → Option (List interval)
  | b, [] => some b
  | b, (i, j) :: ops =>
    match byDecreasingLength.Swap b i j with
    | none => none
    | some b1 => applySwaps b1 ops

/-- The contract of `sort.Sort` in terms of `sort.Interface`: the library changes the
slice only through calls of `Swap`, none of which panics, and leaves it with
`sort.IsSorted` true. -/
structure SwapSortContract (sortFn : List interval → List interval) : Prop where
  swaps : ∀ l, ∃ ops, applySwaps l ops = some (sortFn l)
  ordered : ∀ l, List.Chain' (fun a b => byDecreasingLength.Less b a = false) (sortFn l)

/-- Closed form of the pointer recovered from a packed byte pair `v`:
`(lead - 0x81)*157` plus `trail - 0x40` if `trail < 0x7F` and `trail - 0x62` otherwise,
where `lead` and `trail` are the high and low byte of `v`. -/
def unpack (v : Nat) : Nat :=
  let lead := v / 256
  let trail := v % 256
  (lead - 0x81) * 157 + (if trail < 0x7F then trail - 0x40 else trail - 0x62)

/-! # Proofs -/

/-! ## Packing -/

theorem trailByte_range (x : Nat) :
    (0x40 ≤ trailByte x ∧ trailByte x ≤ 0x7e) ∨ (0xa1 ≤ trailByte x ∧ trailByte x ≤ 0xfe) := by
  have h := Nat.mod_lt x (show 157 > 0 by decide)
  unfold trailByte
  split <;> omega

theorem pack_eq (x : Nat) (hx : x < 19782) : pack x = leadByte x * 256 + trailByte x := by
  have hc0 : x / 157 < 126 := by omega
  have ht := trailByte_range x
  have htr : trailByte x < 2 ^ 8 := by norm_num; omega
  have h1 : (if x % 157 < 0x3f then (x % 157 + 0x40) % 65536 else (x % 157 + 0x62) % 65536)
      = trailByte x := by
    unfold trailByte
    split
    · exact Nat.mod_eq_of_lt (by omega)
    · exact Nat.mod_eq_of_lt (by omega)
  unfold pack
  simp only [h1]
  rw [Nat.mod_eq_of_lt (show 0x81 + x / 157 < 65536 by omega), Nat.shiftLeft_eq,
    Nat.mod_eq_of_lt (show (0x81 + x / 157) * 2 ^ 8 < 65536 by omega)]
  unfold leadByte
  rw [Nat.mul_comm _ (2 ^ 8), ← Nat.mul_add_lt_is_or htr]
  norm_num
  exact Nat.mul_comm _ _

/-! ## The ingestion loop -/

theorem ingestStep_ok (t : Tables) (p : Pair) (hx : p.x < 19782) (hy : p.y < 262144) :
    ingestStep t p = .ok { mapping := Function.update t.mapping p.x p.y
                           reverse := Function.update t.reverse p.y (pack p.x) } := by
  unfold ingestStep reverseLen
  rw [if_neg (by omega), if_neg (by omega)]

theorem ingestStep_outOfRange (t : Tables) (p : Pair) (hx : 19782 ≤ p.x) :
    ingestStep t p = .error (.outOfRange p.x) := by
  unfold ingestStep
  rw [if_pos (by omega)]

theorem ingest_cons_ok (t : Tables) (p : Pair) (ps : List Pair) (hx : p.x < 19782)
    (hy : p.y < 262144) :
    ingest t (p :: ps) =
      ingest { mapping := Function.update t.mapping p.x p.y
               reverse := Function.update t.reverse p.y (pack p.x) } ps := by
  rw [ingest, ingestStep_ok t p hx hy]

/-- Accepted records are all applied: the loop ends normally. -/
theorem ingest_ok (ps : List Pair) : ∀ t : Tables, (∀ p ∈ ps, p.x < 19782) →
    (∀ p ∈ ps, p.y < 262144) → ∃ t1, ingest t ps = .ok t1 := by
  induction ps with
  | nil => intro t _ _; exact ⟨t, rfl⟩
  | cons p ps ih =>
    intro t hx hy
    rw [ingest_cons_ok t p ps (hx p (List.mem_cons_self _ _)) (hy p (List.mem_cons_self _ _))]
    exact ih _ (fun q hq => hx q (List.mem_cons_of_mem _ hq))
      (fun q hq => hy q (List.mem_cons_of_mem _ hq))

/-- A normal end of the loop means every record passed both checks. -/
theorem ingest_eq_ok (ps : List Pair) : ∀ t t1 : Tables, ingest t ps = .ok t1 →
    ∀ p ∈ ps, p.x < 19782 ∧ p.y < 262144 := by
  induction ps with
  | nil => intro t t1 _ p hp; simp at hp
  | cons q ps ih =>
    intro t t1 h p hp
    have hq : q.x < 19782 ∧ q.y < 262144 := by
      by_contra hne
      rw [ingest] at h
      unfold ingestStep reverseLen at h
      split_ifs at h
      omega
    rcases List.mem_cons.mp hp with h1 | h1
    · rw [h1]; exact hq
    · rw [ingest_cons_ok t q ps hq.1 hq.2] at h
      exact ih _ _ h p h1

/-- Records with other code points leave `reverse[y]` alone. -/
theorem ingest_reverse_frame (y : Nat) (ps : List Pair) : ∀ t t1 : Tables,
    ingest t ps = .ok t1 → (∀ q ∈ ps, q.y ≠ y) → t1.reverse y = t.reverse y := by
  induction ps with
  | nil => intro t t1 h _; rw [ingest] at h; cases h; rfl
  | cons q ps ih =>
    intro t t1 h hne
    have hq := ingest_eq_ok _ _ _ h q (List.mem_cons_self _ _)
    rw [ingest_cons_ok t q ps hq.1 hq.2] at h
    rw [ih _ _ h (fun r hr => hne r (List.mem_cons_of_mem _ hr))]
    exact Function.update_noteq (Ne.symm (hne q (List.mem_cons_self _ _))) _ _

/-- Records with other pointers leave `mapping[x]` alone. -/
theorem ingest_mapping_frame (x : Nat) (ps : List Pair) : ∀ t t1 : Tables,
    ingest t ps = .ok t1 → (∀ q ∈ ps, q.x ≠ x) → t1.mapping x = t.mapping x := by
  induction ps with
  | nil => intro t t1 h _; rw [ingest] at h; cases h; rfl
  | cons q ps ih =>
    intro t t1 h hne
    have hq := ingest_eq_ok _ _ _ h q (List.mem_cons_self _ _)
    rw [ingest_cons_ok t q ps hq.1 hq.2] at h
    rw [ih _ _ h (fun r hr => hne r (List.mem_cons_of_mem _ hr))]
    exact Function.update_noteq (Ne.symm (hne q (List.mem_cons_self _ _))) _ _

/-- The loop over `pre ++ p :: post` runs `pre`, then `p`, then `post`. -/
theorem ingest_split (pre : List Pair) (p : Pair) (post : List Pair) : ∀ t t1 : Tables,
    ingest t (pre ++ p :: post) = .ok t1 →
    ∃ t2, ingest t pre = .ok t2 ∧
      ingest { mapping := Function.update t2.mapping p.x p.y
               reverse := Function.update t2.reverse p.y (pack p.x) } post = .ok t1 := by
  induction pre with
  | nil =>
    intro t t1 h
    have hp := ingest_eq_ok _ _ _ h p (by simp)
    rw [List.nil_append, ingest_cons_ok t p post hp.1 hp.2] at h
    exact ⟨t, rfl, h⟩
  | cons q pre ih =>
    intro t t1 h
    have hq := ingest_eq_ok _ _ _ h q (by simp)
    rw [List.cons_append, ingest_cons_ok t q _ hq.1 hq.2] at h
    obtain ⟨t2, h1, h2⟩ := ih _ _ h
    exact ⟨t2, by rw [ingest_cons_ok t q _ hq.1 hq.2]; exact h1, h2⟩

/-- A record that fails the range check ends the loop with that error, whatever follows. -/
theorem ingest_first_bad (pre : List Pair) (p : Pair) (post : List Pair)
    (hpre : ∀ q ∈ pre, q.x < 19782 ∧ q.y < 262144) (hp : 19782 ≤ p.x) : ∀ t : Tables,
    ingest t (pre ++ p :: post) = .error (.outOfRange p.x) := by
  induction pre with
  | nil => intro t; rw [List.nil_append, ingest, ingestStep_outOfRange t p hp]
  | cons q pre ih =>
    intro t
    have hq := hpre q (List.mem_cons_self _ _)
    rw [List.cons_append, ingest_cons_ok t q _ hq.1 hq.2]
    exact ih (fun r hr => hpre r (List.mem_cons_of_mem _ hr)) _

/-! ## The loop invariant of the extraction scan -/

theorem scanInv_init (rev : Nat → Nat) (sep : Int) : ScanInv rev sep 0 scanInit where
  idle := fun _ => ⟨rfl, fun k hk => absurd hk (Nat.not_lt_zero k)⟩
  cur_good := fun h => absurd h (by decide)
  cur_high := by decide
  tail_zero := fun k _ hk _ => absurd hk (Nat.not_lt_zero k)
  closed_good := fun iv h => by simp [scanInit] at h
  closed_before := fun iv h => by simp [scanInit] at h
  chain := by simp [scanInit]
  cover := fun k hk _ => absurd hk (Nat.not_lt_zero k)

theorem scanInv_skip {rev : Nat → Nat} {sep : Int} {n : Nat} {s : ScanState}
    (inv : ScanInv rev sep n s) (hv : rev n = 0) : ScanInv rev sep (n + 1) s where
  idle := fun h => ⟨(inv.idle h).1, fun k hk => by
    rcases Nat.lt_succ_iff_lt_or_eq.mp hk with h1 | h1
    · exact (inv.idle h).2 k h1
    · rw [h1]; exact hv⟩
  cur_good := inv.cur_good
  cur_high := by have := inv.cur_high; push_cast; omega
  tail_zero := fun k h1 h2 h3 => by
    rcases Nat.lt_succ_iff_lt_or_eq.mp h2 with h4 | h4
    · exact inv.tail_zero k h1 h4 h3
    · rw [h4]; exact hv
  closed_good := inv.closed_good
  closed_before := inv.closed_before
  chain := inv.chain
  cover := fun k hk hz => by
    rcases Nat.lt_succ_iff_lt_or_eq.mp hk with h1 | h1
    · exact inv.cover k h1 hz
    · rw [h1] at hz; exact absurd hv hz

theorem scanInv_open {rev : Nat → Nat} {sep : Int} {n : Nat} {s : ScanState}
    (inv : ScanInv rev sep n s) (hv : rev n ≠ 0) (hlow : s.low < 0) :
    ScanInv rev sep (n + 1) { s with low := n, high := n + 1 } := by
  obtain ⟨hs, hz⟩ := inv.idle hlow
  subst hs
  refine ⟨fun h => ?_, fun _ => ⟨?_, ?_, ?_, ?_, ?_⟩, ?_, ?_, ?_, ?_, ?_, ?_⟩
  · simp at h; omega
  · simp
  · simp
  · intro l hl; simp at hl; subst hl; exact hv
  · intro h hh; simp at hh; subst hh; exact hv
  · intro i j h1 h2 h3; simp at h1 h3; omega
  · simp
  · intro k h1 h2; simp at h1; omega
  · intro iv h; simp [scanInit] at h
  · intro iv h; simp [scanInit] at h
  · simp [scanInit]
  · intro k hk hz2
    rcases Nat.lt_succ_iff_lt_or_eq.mp hk with h1 | h1
    · exact absurd (hz k h1) hz2
    · right; simp; omega

theorem scanInv_close {rev : Nat → Nat} {sep : Int} {n : Nat} {s : ScanState}
    (inv : ScanInv rev sep n s) (hv : rev n ≠ 0) (hlow : 0 ≤ s.low)
    (hgap : sep ≤ (n : Int) - s.high) :
    ScanInv rev sep (n + 1)
      { intervals := s.intervals ++ [⟨s.low, s.high⟩], low := n, high := n + 1 } := by
  have hg := inv.cur_good hlow
  have hlt := hg.low_lt_high
  have hhi := inv.cur_high
  simp only at hlt
  refine ⟨fun h => ?_, fun _ => ⟨?_, ?_, ?_, ?_, ?_⟩, ?_, ?_, ?_, ?_, ?_, ?_⟩
  · simp at h; omega
  · simp
  · simp
  · intro l hl; simp at hl; subst hl; exact hv
  · intro h hh; simp at hh; subst hh; exact hv
  · intro i j h1 h2 h3; simp at h1 h3; omega
  · simp
  · intro k h1 h2; simp at h1; omega
  · intro iv h
    rcases List.mem_append.mp h with h1 | h1
    · exact inv.closed_good iv h1
    · rw [List.mem_singleton.mp h1]; exact hg
  · intro iv h
    rcases List.mem_append.mp h with h1 | h1
    · have := inv.closed_before iv h1
      simp only; omega
    · rw [List.mem_singleton.mp h1]; simp only; omega
  · refine List.pairwise_append.mpr ⟨inv.chain, List.pairwise_singleton _ _, ?_⟩
    intro a ha b hb
    rw [List.mem_singleton.mp hb]
    exact inv.closed_before a ha
  · intro k hk hz
    rcases Nat.lt_succ_iff_lt_or_eq.mp hk with h1 | h1
    · left
      rcases inv.cover k h1 hz with ⟨iv, hiv, h2⟩ | h2
      · exact ⟨iv, List.mem_append_left _ hiv, h2⟩
      · exact ⟨⟨s.low, s.high⟩, List.mem_append_right _ (List.mem_singleton.mpr rfl), h2⟩
    · right; simp; omega

theorem scanInv_extend {rev : Nat → Nat} {sep : Int} {n : Nat} {s : ScanState}
    (inv : ScanInv rev sep n s) (hv : rev n ≠ 0) (hlow : 0 ≤ s.low)
    (hgap : (n : Int) - s.high < sep) :
    ScanInv rev sep (n + 1) { s with high := n + 1 } := by
  have hg := inv.cur_good hlow
  have hlt := hg.low_lt_high
  have hhi := inv.cur_high
  simp only at hlt
  refine ⟨fun h => ?_, fun _ => ⟨?_, ?_, ?_, ?_, ?_⟩, ?_, ?_, ?_, ?_, ?_, ?_⟩
  · simp at h; omega
  · exact hlow
  · simp only; omega
  · exact hg.low_nz
  · intro h hh; simp at hh; subst hh; exact hv
  · intro i j h1 h2 h3 hi hj hbetween
    simp only at h1 h3
    by_cases hjh : (j : Int) < s.high
    · exact hg.merge i j h1 h2 hjh hi hj hbetween
    · have hjn : j = n := by
        by_contra hne
        exact hj (inv.tail_zero j (by omega) (by omega) hlow)
      subst hjn
      obtain ⟨h, hh⟩ : ∃ h : Nat, (h : Int) + 1 = s.high := ⟨(s.high - 1).toNat, by omega⟩
      have hlast := hg.last_nz h hh
      have hih : i = h := by
        by_contra hne
        rcases Nat.lt_or_gt_of_ne hne with h4 | h4
        · exact hlast (hbetween h h4 (by omega))
        · exact hi (inv.tail_zero i (by omega) h2 hlow)
      subst hih
      omega
  · simp
  · intro k h1 h2; simp at h1; omega
  · exact inv.closed_good
  · exact inv.closed_before
  · exact inv.chain
  · intro k hk hz
    rcases Nat.lt_succ_iff_lt_or_eq.mp hk with h1 | h1
    · rcases inv.cover k h1 hz with h2 | h2
      · exact Or.inl h2
      · right; simp only; omega
    · right; simp only; omega

theorem scanInv_step {rev : Nat → Nat} {sep : Int} {n : Nat} {s : ScanState}
    (inv : ScanInv rev sep n s) : ScanInv rev sep (n + 1) (scanStep sep s n (rev n)) := by
  unfold scanStep
  by_cases hv : rev n = 0
  · rw [if_pos hv]; exact scanInv_skip inv hv
  · rw [if_neg hv]
    by_cases hlow : s.low < 0
    · rw [if_pos hlow]; exact scanInv_open inv hv hlow
    · rw [if_neg hlow]
      have hlow2 : 0 ≤ s.low := not_lt.mp hlow
      have hhigh : s.high ≥ 0 := by
        have := (inv.cur_good hlow2).low_lt_high
        simp only at this; omega
      by_cases hgap : (n : Int) - s.high ≥ sep
      · rw [if_pos hgap, if_pos hhigh]; exact scanInv_close inv hv hlow2 hgap
      · rw [if_neg hgap]; exact scanInv_extend inv hv hlow2 (not_le.mp hgap)

theorem scanInv_loop (rev : Nat → Nat) (sep : Int) (n : Nat) :
    ScanInv rev sep n (scanLoop rev sep n) := by
  induction n with
  | zero => exact scanInv_init rev sep
  | succ n ih => exact scanInv_step ih

theorem scanIntervals_chain (rev : Nat → Nat) (sep : Int) (n : Nat) :
    (scanIntervals rev sep n).Pairwise (Apart sep) := by
  have inv := scanInv_loop rev sep n
  unfold scanIntervals
  simp only
  split
  · exact List.pairwise_append.mpr ⟨inv.chain, List.pairwise_singleton _ _, fun a ha b hb => by
      rw [List.mem_singleton.mp hb]; exact inv.closed_before a ha⟩
  · exact inv.chain

theorem scanIntervals_good (rev : Nat → Nat) (sep : Int) (n : Nat) (iv : interval)
    (hiv : iv ∈ scanIntervals rev sep n) : GoodInterval rev sep iv ∧ iv.high ≤ n := by
  have inv := scanInv_loop rev sep n
  unfold scanIntervals at hiv
  simp only at hiv
  have hclosed : iv ∈ (scanLoop rev sep n).intervals → GoodInterval rev sep iv ∧ iv.high ≤ n := by
    intro h
    refine ⟨inv.closed_good iv h, ?_⟩
    have h1 := inv.closed_before iv h
    have h2 := inv.cur_high
    have h3 := (inv.closed_good iv h).low_lt_high
    have h4 := (inv.closed_good iv h).low_nonneg
    have h5 := (inv.cur_good (by omega)).low_lt_high
    simp only at h5
    omega
  split at hiv
  · rename_i hhigh
    rcases List.mem_append.mp hiv with h | h
    · exact hclosed h
    · rw [List.mem_singleton.mp h]
      have hlow : 0 ≤ (scanLoop rev sep n).low := by
        by_contra hneg
        have := (inv.idle (not_le.mp hneg)).1
        rw [this] at hhigh
        exact absurd hhigh (by decide)
      exact ⟨inv.cur_good hlow, inv.cur_high⟩
  · exact hclosed hiv

theorem scanIntervals_cover (rev : Nat → Nat) (sep : Int) (n k : Nat) (hk : k < n)
    (hz : rev k ≠ 0) : ∃ iv ∈ scanIntervals rev sep n, iv.low ≤ k ∧ (k : Int) < iv.high := by
  have inv := scanInv_loop rev sep n
  unfold scanIntervals
  simp only
  rcases inv.cover k hk hz with ⟨iv, hiv, h⟩ | h
  · split
    · exact ⟨iv, List.mem_append_left _ hiv, h⟩
    · exact ⟨iv, hiv, h⟩
  · have hhigh : (scanLoop rev sep n).high ≥ 0 := by omega
    rw [if_pos hhigh]
    exact ⟨_, List.mem_append_right _ (List.mem_singleton.mpr rfl), h⟩

/-- In a list whose elements pairwise exclude each other for `p`, a `p`-element is the
only one. -/
theorem countP_eq_one_of_pairwise {α : Type} (p : α → Bool) (R : α → α → Prop)
    (hR : ∀ a b, R a b → ¬ (p a = true ∧ p b = true)) :
    ∀ l : List α, l.Pairwise R → (∃ a ∈ l, p a = true) → l.countP p = 1
  | [], _, h => by simp at h
  | a :: l, hp, h => by
    rw [List.pairwise_cons] at hp
    by_cases hpa : p a = true
    · have hnone : ∀ b ∈ l, ¬ p b = true := fun b hb hpb => hR a b (hp.1 b hb) ⟨hpa, hpb⟩
      rw [List.countP_cons_of_pos _ _ hpa, List.countP_eq_zero.mpr hnone]
    · rw [List.countP_cons_of_neg _ _ hpa]
      apply countP_eq_one_of_pairwise p R hR l hp.2
      obtain ⟨b, hb, hpb⟩ := h
      rcases List.mem_cons.mp hb with h1 | h1
      · rw [h1] at hpb; exact absurd hpb hpa
      · exact ⟨b, h1, hpb⟩

/-! ## Sorting and the round-trip scenario -/

theorem less_eq_false_iff (a b : interval) :
    byDecreasingLength.Less b a = false ↔ b.len ≤ a.len := by
  simp [byDecreasingLength.Less]

/-- With `byDecreasingLength.Less`, a slice on which `sort.IsSorted` holds is ordered at
every pair of positions, not only at neighbours. -/
theorem pairwise_of_contract {sortFn : List interval → List interval}
    (hsort : SortContract byDecreasingLength.Less sortFn) (l : List interval) :
    (sortFn l).Pairwise (fun a b => b.len ≤ a.len) := by
  have : IsTrans interval (fun a b => b.len ≤ a.len) := ⟨fun a b c h1 h2 => le_trans h2 h1⟩
  exact List.chain'_iff_pairwise.mp
    ((hsort.ordered l).imp (fun {a b} hab => (less_eq_false_iff a b).mp hab))

theorem insertionSort_contract : SortContract byDecreasingLength.Less insertionSort where
  perm := fun l => List.perm_insertionSort _ l
  ordered := fun l => by
    have : IsTotal interval (fun a b => b.len ≤ a.len) := ⟨fun a b => le_total b.len a.len⟩
    have : IsTrans interval (fun a b => b.len ≤ a.len) := ⟨fun a b c h1 h2 => le_trans h2 h1⟩
    have h := List.sorted_insertionSort (fun a b : interval => b.len ≤ a.len) l
    exact (List.Pairwise.imp (fun {a b} hab => (less_eq_false_iff a b).mpr hab) h).chain'

/-- A sort meeting the contract returns a one-element slice unchanged. -/
theorem sort_singleton {sortFn : List interval → List interval}
    (hsort : SortContract byDecreasingLength.Less sortFn) (iv : interval) :
    sortFn [iv] = [iv] :=
  List.perm_singleton.mp (hsort.perm [iv])

/-- Zero entries leave the loop state as it is. -/
theorem scanLoop_zero_run (rev : Nat → Nat) (sep : Int) (a : Nat) :
    ∀ b, a ≤ b → (∀ k, a ≤ k → k < b → rev k = 0) → scanLoop rev sep b = scanLoop rev sep a := by
  intro b hab
  induction b, hab using Nat.le_induction with
  | base => intro _; rfl
  | succ b hb ih =>
    intro hz
    rw [scanLoop, scanStep, if_pos (hz b hb (Nat.lt_succ_self b))]
    exact ih (fun k h1 h2 => hz k h1 (Nat.lt_succ_of_lt h2))

theorem roundTrip_ingest :
    ingest Tables.empty [⟨0, 0x4E00⟩, ⟨1, 0x4E01⟩, ⟨200, 0x4E02⟩] =
      .ok { mapping := Function.update (Function.update (Function.update (fun _ => 0)
              0 0x4E00) 1 0x4E01) 200 0x4E02
            reverse := roundTripReverse } := rfl

theorem roundTripReverse_zero (k : Nat) (h : k < 0x4E00 ∨ 0x4E03 ≤ k) :
    roundTripReverse k = 0 := by
  unfold roundTripReverse
  rw [Function.update_noteq (by omega), Function.update_noteq (by omega),
    Function.update_noteq (by omega)]

/-- The scan of the round-trip scenario finds one interval, over the three adjacent code
points. -/
theorem roundTrip_scan : scanIntervals roundTripReverse 10 reverseLen = [⟨0x4E00, 0x4E03⟩] := by
  have h1 : scanLoop roundTripReverse 10 0x4E00 = scanInit :=
    scanLoop_zero_run roundTripReverse 10 0 0x4E00 (by decide)
      (fun k _ hk => roundTripReverse_zero k (Or.inl hk))
  have h2 : scanLoop roundTripReverse 10 0x4E03 = ⟨[], 0x4E00, 0x4E03⟩ := by
    show scanStep 10 (scanStep 10 (scanStep 10 (scanLoop roundTripReverse 10 0x4E00)
      0x4E00 (roundTripReverse 0x4E00)) 0x4E01 (roundTripReverse 0x4E01))
      0x4E02 (roundTripReverse 0x4E02) = _
    rw [h1]
    decide
  have h3 : scanLoop roundTripReverse 10 reverseLen = ⟨[], 0x4E00, 0x4E03⟩ := by
    rw [← h2]
    exact scanLoop_zero_run roundTripReverse 10 0x4E03 reverseLen (by decide)
      (fun k hk _ => roundTripReverse_zero k (Or.inr hk))
  unfold scanIntervals
  rw [h3]
  decide

/-- Two different intervals of the scan lie apart, one of them first. -/
theorem scanIntervals_apart (rev : Nat → Nat) (sep : Int) (n : Nat) (a b : interval)
    (ha : a ∈ scanIntervals rev sep n) (hb : b ∈ scanIntervals rev sep n) (hne : a ≠ b) :
    Apart sep a b ∨ Apart sep b a := by
  have hsym : (scanIntervals rev sep n).Pairwise (fun x y => Apart sep x y ∨ Apart sep y x) :=
    (scanIntervals_chain rev sep n).imp Or.inl
  exact hsym.forall (fun x y h => h.symm) ha hb hne

/-! ## The claims -/

/-- C1 (last write wins on the reverse table): for every accepted input (all pointers
below 19782, all code points below 262144) the loop ends normally and, for every pair `p`
of the input after which no pair carries the same code point (the last pair for that code
point), the final `reverse[p.y]` is the packed byte pair of `p.x`. -/
theorem reverse_last_write_wins (ps : List Pair) (hx : ∀ p ∈ ps, p.x < 19782)
    (hy : ∀ p ∈ ps, p.y < 262144) :
    ∃ t, ingest Tables.empty ps = .ok t ∧
      ∀ pre p post, ps = pre ++ p :: post → (∀ q ∈ post, q.y ≠ p.y) →
        t.reverse p.y = pack p.x := by
  obtain ⟨t, ht⟩ := ingest_ok ps Tables.empty hx hy
  refine ⟨t, ht, ?_⟩
  intro pre p post hps hlast
  subst hps
  obtain ⟨t2, _, h2⟩ := ingest_split pre p post _ _ ht
  rw [ingest_reverse_frame p.y post _ _ h2 hlast]
  exact Function.update_same _ _ _

/-- Witness for C1: the two duplicated code points of the claim. -/
theorem reverse_last_write_wins_witness :
    (∃ t, ingest Tables.empty [⟨5000, 0x8005⟩, ⟨1000, 0x8005⟩] = .ok t ∧
      t.reverse 0x8005 = 0x877A) ∧
    (∃ t, ingest Tables.empty [⟨2148, 0x8005⟩, ⟨6543, 0x8005⟩] = .ok t ∧
      t.reverse 0x8005 = 0xAACC ∧ t.reverse 0x8005 ≠ 0x8ECD) := by
  constructor
  · obtain ⟨t, ht, h⟩ := reverse_last_write_wins [⟨5000, 0x8005⟩, ⟨1000, 0x8005⟩]
      (by decide) (by decide)
    exact ⟨t, ht, h [⟨5000, 0x8005⟩] ⟨1000, 0x8005⟩ [] rfl (by decide)⟩
  · obtain ⟨t, ht, h⟩ := reverse_last_write_wins [⟨2148, 0x8005⟩, ⟨6543, 0x8005⟩]
      (by decide) (by decide)
    have h1 : t.reverse 0x8005 = 0xAACC := h [⟨2148, 0x8005⟩] ⟨6543, 0x8005⟩ [] rfl (by decide)
    exact ⟨t, ht, h1, by rw [h1]; decide⟩

/-- C2 (interval coverage): for every reverse table, every separation and every index `i`
of the table with `reverse[i] != 0`, exactly one element of the interval list produced by
the scan has `low <= i < high`. -/
theorem interval_coverage (rev : Nat → Nat) (sep : Int) (n i : Nat) (hi : i < n)
    (hnz : rev i ≠ 0) :
    (scanIntervals rev sep n).countP (fun iv => iv.contains i) = 1 := by
  apply countP_eq_one_of_pairwise _ (Apart sep) _ _ (scanIntervals_chain rev sep n)
  · obtain ⟨iv, hiv, h⟩ := scanIntervals_cover rev sep n i hi hnz
    exact ⟨iv, hiv, by simp [interval.contains, h]⟩
  · intro a b hab ⟨ha, hb⟩
    simp only [interval.contains, decide_eq_true_eq] at ha hb
    have := hab.1
    omega

/-- Witness for C2: non-zero entries at 0, 5 and 6 in a table of length 8, separation 2. -/
theorem interval_coverage_witness :
    scanIntervals (fun i => if i = 0 ∨ i = 5 ∨ i = 6 then 1 else 0) 2 8 = [⟨0, 1⟩, ⟨5, 7⟩] ∧
    (scanIntervals (fun i => if i = 0 ∨ i = 5 ∨ i = 6 then 1 else 0) 2 8).countP
      (fun iv => iv.contains 6) = 1 :=
  ⟨by decide, interval_coverage (fun i => if i = 0 ∨ i = 5 ∨ i = 6 then 1 else 0) 2 8 6
    (by decide) (by decide)⟩

/-- C3 (gap property): for every reverse table, two intervals produced by the scan with
`low1 < low2` satisfy `low2 - high1 >= separation`, and the `separation` entries from
`high1` on are all zero. -/
theorem interval_gap (rev : Nat → Nat) (sep : Int) (n : Nat) (a b : interval)
    (ha : a ∈ scanIntervals rev sep n) (hb : b ∈ scanIntervals rev sep n)
    (hlt : a.low < b.low) :
    b.low - a.high ≥ sep ∧ ∀ k : Nat, a.high ≤ k → (k : Int) < a.high + sep → rev k = 0 := by
  have hne : a ≠ b := fun h => by rw [h] at hlt; exact lt_irrefl _ hlt
  have hgb := scanIntervals_good rev sep n b hb
  have hga := scanIntervals_good rev sep n a ha
  have hgap : b.low - a.high ≥ sep := by
    rcases scanIntervals_apart rev sep n a b ha hb hne with h | h
    · exact h.2
    · have h1 := hgb.1.low_lt_high
      have h2 := h.1
      omega
  refine ⟨hgap, fun k hk1 hk2 => ?_⟩
  by_contra hnz
  have hb1 := hgb.1.low_lt_high
  have hb2 := hgb.2
  obtain ⟨c, hc, hc1, hc2⟩ := scanIntervals_cover rev sep n k (by omega) hnz
  have hca : a ≠ c := fun h => by rw [← h] at hc2; omega
  have ha1 := hga.1.low_lt_high
  rcases scanIntervals_apart rev sep n a c ha hc hca with h | h
  · have := h.2
    omega
  · have := h.1
    omega

/-- Witness for C3: non-zero entries at 0 and 5 in a table of length 8, separation 2. -/
theorem interval_gap_witness :
    scanIntervals (fun i => if i = 0 ∨ i = 5 then 1 else 0) 2 8 = [⟨0, 1⟩, ⟨5, 6⟩] ∧
    ((5 : Int) - 1 ≥ 2 ∧ ∀ k : Nat, (1 : Int) ≤ k → (k : Int) < 1 + 2 →
      (fun i => if i = 0 ∨ i = 5 then 1 else 0) k = 0) :=
  ⟨by decide, interval_gap (fun i => if i = 0 ∨ i = 5 then 1 else 0) 2 8 ⟨0, 1⟩ ⟨5, 6⟩
    (by decide) (by decide) (by decide)⟩

/-- C4 (merge property): for every reverse table and every interval produced by the scan,
two non-zero indices `i < j` inside the interval with only zeros strictly between them
have fewer than `separation` zeros between them: `j - (i + 1) < separation`. -/
theorem interval_merge (rev : Nat → Nat) (sep : Int) (n : Nat) (iv : interval)
    (hiv : iv ∈ scanIntervals rev sep n) (i j : Nat) (hlow : iv.low ≤ i) (hij : i < j)
    (hhigh : (j : Int) < iv.high) (hi : rev i ≠ 0) (hj : rev j ≠ 0)
    (hbetween : ∀ k, i < k → k < j → rev k = 0) : (j : Int) - (i + 1) < sep :=
  (scanIntervals_good rev sep n iv hiv).1.merge i j hlow hij hhigh hi hj hbetween

/-- Witness for C4: non-zero entries at 0 and 2 merged under separation 3. -/
theorem interval_merge_witness :
    scanIntervals (fun i => if i = 0 ∨ i = 2 then 1 else 0) 3 4 = [⟨0, 3⟩] ∧
    ((2 : Nat) : Int) - ((0 : Nat) + 1) < 3 :=
  ⟨by decide, interval_merge (fun i => if i = 0 ∨ i = 2 then 1 else 0) 3 4 ⟨0, 3⟩
    (by decide) 0 2 (by decide) (by decide) (by decide) (by decide) (by decide)
    (fun k h1 h2 => by
      have hk : k = 1 := by omega
      rw [hk]
      decide)⟩

/-- C5 (sort order): whatever sort meets the contract of `sort.Sort` for
`byDecreasingLength`, the sorted slice is non-increasing in length: for positions `p < q`
the interval at `p` is at least as long as the one at `q`. -/
theorem sorted_by_decreasing_length (sortFn : List interval → List interval)
    (hsort : SortContract byDecreasingLength.Less sortFn) (ivs : List interval)
    (p q : Nat) (hpq : p < q) (hq : q < (sortFn ivs).length) :
    ((sortFn ivs).get ⟨p, hpq.trans hq⟩).len ≥ ((sortFn ivs).get ⟨q, hq⟩).len :=
  List.pairwise_iff_get.mp (pairwise_of_contract hsort ivs) ⟨p, hpq.trans hq⟩ ⟨q, hq⟩ hpq

/-- Witness for C5: insertion sort on four intervals, positions 1 and 2. -/
theorem sorted_by_decreasing_length_witness :
    insertionSort [⟨0, 1⟩, ⟨5, 9⟩, ⟨10, 11⟩, ⟨20, 24⟩] = [⟨5, 9⟩, ⟨20, 24⟩, ⟨0, 1⟩, ⟨10, 11⟩] ∧
    ((insertionSort [⟨0, 1⟩, ⟨5, 9⟩, ⟨10, 11⟩, ⟨20, 24⟩]).get ⟨1, by decide⟩).len ≥
      ((insertionSort [⟨0, 1⟩, ⟨5, 9⟩, ⟨10, 11⟩, ⟨20, 24⟩]).get ⟨2, by decide⟩).len :=
  ⟨by decide, sorted_by_decreasing_length insertionSort insertionSort_contract
    [⟨0, 1⟩, ⟨5, 9⟩, ⟨10, 11⟩, ⟨20, 24⟩] 1 2 (by decide) (by decide)⟩

/-- Counterexample to C7 as stated: after the three records, the scan with separation 10
finds the single interval `[0x4E00, 0x4E03)`, so no sort meeting the contract of
`sort.Sort` returns two intervals. -/
theorem roundTrip_not_two_intervals :
    ∃ t, ingest Tables.empty [⟨0, 0x4E00⟩, ⟨1, 0x4E01⟩, ⟨200, 0x4E02⟩] = .ok t ∧
      scanIntervals t.reverse 10 reverseLen = [⟨0x4E00, 0x4E03⟩] ∧
      ∀ sortFn, SortContract byDecreasingLength.Less sortFn →
        (sortFn (scanIntervals t.reverse 10 reverseLen)).length ≠ 2 := by
  refine ⟨_, roundTrip_ingest, roundTrip_scan, fun sortFn hsort => ?_⟩
  show (sortFn (scanIntervals roundTripReverse 10 reverseLen)).length ≠ 2
  rw [roundTrip_scan, sort_singleton hsort]
  decide

/-- C7, amended (round-trip scenario): ingesting `(0, 0x4E00)`, `(1, 0x4E01)`,
`(200, 0x4E02)` into empty tables, scanning with separation 10 and sorting by decreasing
length yields exactly one interval, `[0x4E00, 0x4E03)`, of length 3. -/
theorem roundTrip_one_interval (sortFn : List interval → List interval)
    (hsort : SortContract byDecreasingLength.Less sortFn) :
    ∃ t, ingest Tables.empty [⟨0, 0x4E00⟩, ⟨1, 0x4E01⟩, ⟨200, 0x4E02⟩] = .ok t ∧
      sortFn (scanIntervals t.reverse 10 reverseLen) = [⟨0x4E00, 0x4E03⟩] ∧
      (sortFn (scanIntervals t.reverse 10 reverseLen)).map interval.len = [3] := by
  have h : sortFn (scanIntervals roundTripReverse 10 reverseLen) = [⟨0x4E00, 0x4E03⟩] := by
    rw [roundTrip_scan, sort_singleton hsort]
  refine ⟨_, roundTrip_ingest, h, ?_⟩
  show (sortFn (scanIntervals roundTripReverse 10 reverseLen)).map interval.len = [3]
  rw [h]
  decide

/-- Witness for C7 amended: the scenario sorted by insertion sort. -/
theorem roundTrip_one_interval_witness :
    ∃ t, ingest Tables.empty [⟨0, 0x4E00⟩, ⟨1, 0x4E01⟩, ⟨200, 0x4E02⟩] = .ok t ∧
      insertionSort (scanIntervals t.reverse 10 reverseLen) = [⟨0x4E00, 0x4E03⟩] ∧
      (insertionSort (scanIntervals t.reverse 10 reverseLen)).map interval.len = [3] :=
  roundTrip_one_interval insertionSort insertionSort_contract

/-- Counterexample to C8 as stated: the single record `0 0x40000` has its pointer in
range, yet the loop does not end normally: the write `reverse[y]` is out of bounds. -/
theorem ingest_fails_without_bad_index :
    ingest Tables.empty [⟨0, 0x40000⟩] = .error (.indexPanic 0x40000) ∧
    ¬ ∃ p ∈ [(⟨0, 0x40000⟩ : Pair)], 19782 ≤ p.x :=
  ⟨rfl, by decide⟩

/-- C8, amended (range check): on inputs whose code points are all below 262144, the loop
fails if and only if some pair has its pointer at or above 19782; the failure is the range
error of the first such pair whatever follows it, so later pairs are never applied; pointer
19781 is accepted and pointer 19782 is rejected. -/
theorem ingest_fails_iff (ps : List Pair) (hy : ∀ p ∈ ps, p.y < 262144) :
    ((∃ e, ingest Tables.empty ps = .error e) ↔ ∃ p ∈ ps, 19782 ≤ p.x) ∧
    (∀ pre p post, ps = pre ++ p :: post → (∀ q ∈ pre, q.x < 19782) → 19782 ≤ p.x →
      ∀ post2, ingest Tables.empty (pre ++ p :: post2) = .error (.outOfRange p.x)) ∧
    (∀ y, y < 262144 → (∃ t, ingest Tables.empty [⟨19781, y⟩] = .ok t) ∧
      ingest Tables.empty [⟨19782, y⟩] = .error (.outOfRange 19782)) := by
  refine ⟨⟨?_, ?_⟩, ?_, ?_⟩
  · rintro ⟨e, he⟩
    by_contra hnone
    obtain ⟨t, ht⟩ := ingest_ok ps Tables.empty
      (fun p hp => not_le.mp (fun h => hnone ⟨p, hp, h⟩)) hy
    rw [ht] at he
    exact Except.noConfusion he
  · rintro ⟨p, hp, hbad⟩
    by_contra hnone
    have hok : ∃ t, ingest Tables.empty ps = .ok t := by
      cases h : ingest Tables.empty ps with
      | error e => exact absurd ⟨e, h⟩ hnone
      | ok t => exact ⟨t, rfl⟩
    obtain ⟨t, ht⟩ := hok
    have := (ingest_eq_ok ps _ _ ht p hp).1
    omega
  · intro pre p post hps hpre hbad post2
    subst hps
    exact ingest_first_bad pre p post2
      (fun q hq => ⟨hpre q hq, hy q (List.mem_append_left _ hq)⟩) hbad _
  · intro y hy2
    exact ⟨ingest_ok _ _ (by simp) (by simpa using hy2), ingest_first_bad [] ⟨19782, y⟩ []
      (by simp) (le_refl _) _⟩

/-- Witness for C8 amended: a bad pointer in second place. -/
theorem ingest_fails_iff_witness :
    ingest Tables.empty [⟨7, 0x4E00⟩, ⟨19782, 0x4E01⟩, ⟨8, 0x4E02⟩]
      = .error (.outOfRange 19782) :=
  (ingest_fails_iff [⟨7, 0x4E00⟩, ⟨19782, 0x4E01⟩, ⟨8, 0x4E02⟩] (by decide)).2.1
    [⟨7, 0x4E00⟩] ⟨19782, 0x4E01⟩ [⟨8, 0x4E02⟩] rfl (by decide) (by decide) [⟨8, 0x4E02⟩]

/-- C9 (forward table content): for every accepted input the loop ends normally,
`mapping[p.x]` is the code point of the last pair with pointer `p.x`, and `mapping[i]` is
zero for every `i` that is the pointer of no pair, in particular for every `i` from 19782
on. -/
theorem mapping_content (ps : List Pair) (hx : ∀ p ∈ ps, p.x < 19782)
    (hy : ∀ p ∈ ps, p.y < 262144) :
    ∃ t, ingest Tables.empty ps = .ok t ∧
      (∀ pre p post, ps = pre ++ p :: post → (∀ q ∈ post, q.x ≠ p.x) →
        t.mapping p.x = p.y) ∧
      (∀ i, (∀ q ∈ ps, q.x ≠ i) → t.mapping i = 0) ∧
      (∀ i, 19782 ≤ i → t.mapping i = 0) := by
  obtain ⟨t, ht⟩ := ingest_ok ps Tables.empty hx hy
  have hfree : ∀ i, (∀ q ∈ ps, q.x ≠ i) → t.mapping i = 0 := fun i hi =>
    ingest_mapping_frame i ps _ _ ht hi
  refine ⟨t, ht, ?_, hfree, fun i hi => hfree i (fun q hq h => ?_)⟩
  · intro pre p post hps hlast
    subst hps
    obtain ⟨t2, _, h2⟩ := ingest_split pre p post _ _ ht
    rw [ingest_mapping_frame p.x post _ _ h2 hlast]
    exact Function.update_same _ _ _
  · have := hx q hq
    omega

/-- Witness for C9: the three records of the round-trip scenario. -/
theorem mapping_content_witness :
    ∃ t, ingest Tables.empty [⟨0, 0x4E00⟩, ⟨1, 0x4E01⟩, ⟨200, 0x4E02⟩] = .ok t ∧
      t.mapping 0 = 0x4E00 ∧ t.mapping 1 = 0x4E01 ∧ t.mapping 200 = 0x4E02 ∧
      ∀ i, i ≠ 0 → i ≠ 1 → i ≠ 200 → t.mapping i = 0 := by
  obtain ⟨t, ht, hlast, hfree, _⟩ := mapping_content
    [⟨0, 0x4E00⟩, ⟨1, 0x4E01⟩, ⟨200, 0x4E02⟩] (by decide) (by decide)
  refine ⟨t, ht, ?_, ?_, ?_, ?_⟩
  · exact hlast [] ⟨0, 0x4E00⟩ [⟨1, 0x4E01⟩, ⟨200, 0x4E02⟩] rfl (by decide)
  · exact hlast [⟨0, 0x4E00⟩] ⟨1, 0x4E01⟩ [⟨200, 0x4E02⟩] rfl (by decide)
  · exact hlast [⟨0, 0x4E00⟩, ⟨1, 0x4E01⟩] ⟨200, 0x4E02⟩ [] rfl (by decide)
  · intro i h0 h1 h2
    apply hfree
    intro q hq
    simp only [List.mem_cons, List.mem_singleton, List.not_mem_nil, or_false] at hq
    rcases hq with h | h | h <;> rw [h] <;> simp only <;> omega

/-- C10 (packed byte pair): for every pointer below 19782 the stored value is
`lead * 256 + trail`; it and its two parts fit 16 bits, the lead byte lies in
`[0x81, 0xFE]`, and the trail byte lies in `[0x40, 0x7E]` or `[0xA1, 0xFE]`, never in
`[0x7F, 0xA0]`. -/
theorem pack_bytes (x : Nat) (hx : x < 19782) :
    pack x = leadByte x * 256 + trailByte x ∧
    leadByte x * 256 + trailByte x < 65536 ∧ leadByte x * 256 < 65536 ∧
    0x81 ≤ leadByte x ∧ leadByte x ≤ 0xFE ∧
    ((0x40 ≤ trailByte x ∧ trailByte x ≤ 0x7E) ∨ (0xA1 ≤ trailByte x ∧ trailByte x ≤ 0xFE)) ∧
    ¬ (0x7F ≤ trailByte x ∧ trailByte x ≤ 0xA0) := by
  have ht := trailByte_range x
  have hl : leadByte x = 0x81 + x / 157 := rfl
  have hc0 : x / 157 < 126 := by omega
  refine ⟨pack_eq x hx, ?_, ?_, ?_, ?_, ht, ?_⟩ <;> omega

/-- Witness for C10: the two encodings of U+8005 quoted in the source. -/
theorem pack_bytes_witness : pack 2148 = 0x8ECD ∧ pack 6543 = 0xAACC :=
  ⟨(pack_bytes 2148 (by decide)).1.trans (by decide),
   (pack_bytes 6543 (by decide)).1.trans (by decide)⟩

/-! # Emission, packing and the sort interface -/

/-! ## Emission -/

theorem readAt_inBounds (tbl : Nat → Nat) (n j : Nat) (hj : j < n) :
    readAt tbl n (j : Int) = some (tbl j) := by
  unfold readAt
  rw [if_pos ⟨Int.natCast_nonneg j, by exact_mod_cast hj⟩, Int.toNat_natCast]

/-- The spec list grows by one index exactly as the encode loop does. -/
theorem encodeSpec_succ (rev : Nat → Nat) (a : Nat) (low : Int) (c : Nat) :
    ((List.range' a (c + 1)).filter (fun j => decide (rev j ≠ 0))).map
        (fun (j : Nat) => ((j : Int) - low, rev j)) =
      ((List.range' a c).filter (fun j => decide (rev j ≠ 0))).map
        (fun (j : Nat) => ((j : Int) - low, rev j)) ++
      (if rev (a + c) = 0 then [] else [(((a + c : Nat) : Int) - low, rev (a + c))]) := by
  rw [List.range'_concat, List.filter_append, List.map_append]
  congr 1
  by_cases h : rev (a + c) = 0
  · simp [h]
  · simp [h]

/-- Inside the array, the encode loop prints the spec list of the indices it has visited. -/
theorem emitEncodeLoop_eq (rev : Nat → Nat) (n a : Nat) :
    ∀ c, a + c ≤ n → emitEncodeLoop rev n (a : Int) c =
      some (((List.range' a c).filter (fun j => decide (rev j ≠ 0))).map
        (fun (j : Nat) => ((j : Int) - (a : Int), rev j))) := by
  intro c
  induction c with
  | zero => intro _; rfl
  | succ c ih =>
    intro hc
    have hread : readAt rev n ((a : Int) + (c : Int)) = some (rev (a + c)) := by
      have := readAt_inBounds rev n (a + c) (by omega)
      rwa [Nat.cast_add] at this
    rw [emitEncodeLoop, ih (by omega), encodeSpec_succ]
    simp only [hread]
    by_cases h : rev (a + c) = 0
    · simp [h]
    · simp [h]

/-- For an interval inside the array, the printed literal is the spec list. -/
theorem emitEncode_eq (rev : Nat → Nat) (n : Nat) (v : interval) (hlow : 0 ≤ v.low)
    (hhigh : v.high ≤ n) : emitEncode rev n v = some (encodeEntriesSpec rev v) := by
  obtain ⟨a, ha⟩ : ∃ a : Nat, v.low = a := ⟨v.low.toNat, (Int.toNat_of_nonneg hlow).symm⟩
  unfold emitEncode encodeEntriesSpec
  rw [ha, Int.toNat_natCast]
  by_cases hc : (v.high - (a : Int)).toNat = 0
  · rw [hc]; rfl
  · exact emitEncodeLoop_eq rev n a _ (by omega)

theorem emitDecodeLoop_eq (mapping : Nat → Nat) (n : Nat) :
    emitDecodeLoop mapping n = decodeEntriesSpec mapping n := by
  induction n with
  | zero => rfl
  | succ n ih =>
    unfold decodeEntriesSpec at *
    rw [emitDecodeLoop, ih, List.range_succ, List.filter_append, List.map_append]
    by_cases h : mapping n = 0
    · simp [h]
    · simp [h]

/-- Reading a literal built from the kept elements of `l` under an injective key: the
value of a kept element, zero for a dropped one. -/
theorem literalAt_map_filter {α β : Type} [DecidableEq α] (l : List β) (p : β → Bool)
    (key : β → α) (val : β → Nat) (hinj : ∀ a ∈ l, ∀ b ∈ l, key a = key b → a = b)
    (j : β) (hj : j ∈ l) :
    literalAt ((l.filter p).map (fun b => (key b, val b))) (key j) =
      if p j = true then val j else 0 := by
  unfold literalAt
  cases hfind : ((l.filter p).map (fun b => (key b, val b))).find?
      (fun e => decide (e.1 = key j)) with
  | none =>
    simp only
    by_cases hp : p j = true
    · exfalso
      have hmem : (key j, val j) ∈ (l.filter p).map (fun b => (key b, val b)) :=
        List.mem_map.mpr ⟨j, List.mem_filter.mpr ⟨hj, hp⟩, rfl⟩
      have := List.find?_eq_none.mp hfind _ hmem
      simp at this
    · rw [if_neg hp]
  | some e =>
    simp only
    have hkey : e.1 = key j := by simpa using List.find?_some hfind
    obtain ⟨b, hb, hbe⟩ := List.mem_map.mp (List.mem_of_find?_eq_some hfind)
    obtain ⟨hbl, hpb⟩ := List.mem_filter.mp hb
    have hbj : b = j := hinj b hbl j hj (by rw [← hkey, ← hbe])
    subst hbj
    rw [← hbe, if_pos hpb]

/-- A key that no kept element carries reads as zero. -/
theorem literalAt_absent {α : Type} [DecidableEq α] (entries : List (α × Nat)) (k : α)
    (h : ∀ e ∈ entries, e.1 ≠ k) : literalAt entries k = 0 := by
  unfold literalAt
  rw [List.find?_eq_none.mpr (fun e he => by simpa using h e he)]

theorem literalLen_foldl_ge (entries : List (Int × Nat)) :
    ∀ m : Int, m ≤ entries.foldl (fun m e => max m (e.1 + 1)) m := by
  induction entries with
  | nil => intro m; exact le_refl m
  | cons e es ih => intro m; exact le_trans (le_max_left _ _) (ih _)

theorem literalLen_foldl_mem (entries : List (Int × Nat)) :
    ∀ (m : Int) (e : Int × Nat), e ∈ entries →
      e.1 + 1 ≤ entries.foldl (fun m e => max m (e.1 + 1)) m := by
  induction entries with
  | nil => intro m e he; simp at he
  | cons a es ih =>
    intro m e he
    rcases List.mem_cons.mp he with h | h
    · rw [h]; exact le_trans (le_max_right _ _) (literalLen_foldl_ge es _)
    · exact ih _ e h

theorem literalLen_foldl_le (entries : List (Int × Nat)) (bound : Int) :
    ∀ m : Int, m ≤ bound → (∀ e ∈ entries, e.1 + 1 ≤ bound) →
      entries.foldl (fun m e => max m (e.1 + 1)) m ≤ bound := by
  induction entries with
  | nil => intro m hm _; exact hm
  | cons a es ih =>
    intro m hm h
    exact ih _ (max_le hm (h a (List.mem_cons_self _ _)))
      (fun e he => h e (List.mem_cons_of_mem _ he))

/-- A literal whose keys stay below `len` and that has the key `len - 1` has length `len`. -/
theorem literalLen_eq (entries : List (Int × Nat)) (len : Int) (hlen : 0 ≤ len)
    (hkeys : ∀ e ∈ entries, e.1 + 1 ≤ len) (hlast : ∃ e ∈ entries, e.1 + 1 = len) :
    literalLen entries = len := by
  obtain ⟨e, he, hel⟩ := hlast
  apply le_antisymm
  · exact literalLen_foldl_le entries len 0 hlen hkeys
  · rw [← hel]; exact literalLen_foldl_mem entries 0 e he

/-- Membership in the spec list of an interval. -/
theorem mem_encodeEntriesSpec (rev : Nat → Nat) (v : interval) (hlow : 0 ≤ v.low)
    (e : Int × Nat) :
    e ∈ encodeEntriesSpec rev v ↔
      ∃ j : Nat, v.low ≤ j ∧ (j : Int) < v.high ∧ rev j ≠ 0 ∧ e = ((j : Int) - v.low, rev j) := by
  unfold encodeEntriesSpec
  simp only [List.mem_map, List.mem_filter, List.mem_range'_1, decide_eq_true_eq]
  constructor
  · rintro ⟨j, ⟨⟨h1, h2⟩, h3⟩, h4⟩
    exact ⟨j, by omega, by omega, h3, h4.symm⟩
  · rintro ⟨j, h1, h2, h3, h4⟩
    exact ⟨j, ⟨⟨by omega, by omega⟩, h3⟩, h4.symm⟩

/-- The keys of the spec list increase strictly. -/
theorem encodeEntriesSpec_sorted (rev : Nat → Nat) (v : interval) :
    (encodeEntriesSpec rev v).Pairwise (fun a b => a.1 < b.1) := by
  unfold encodeEntriesSpec
  rw [List.pairwise_map]
  apply List.Pairwise.filter
  exact (List.pairwise_lt_range' _ _).imp (fun {a b} h => by omega)

/-- Reading the spec list at offset `k` gives `reverse[low + k]`. -/
theorem literalAt_encodeEntriesSpec (rev : Nat → Nat) (v : interval) (hlow : 0 ≤ v.low)
    (k : Nat) (hk : (k : Int) < v.high - v.low) :
    literalAt (encodeEntriesSpec rev v) (k : Int) = rev (v.low.toNat + k) := by
  have h := literalAt_map_filter (List.range' v.low.toNat (v.high - v.low).toNat)
    (fun j => decide (rev j ≠ 0)) (fun (j : Nat) => (j : Int) - v.low) rev
    (fun a _ b _ hab => by
      have hab2 : (a : Int) - v.low = (b : Int) - v.low := hab
      omega) (v.low.toNat + k)
    (List.mem_range'_1.mpr ⟨by omega, by omega⟩)
  have hkey : (((v.low.toNat + k : Nat) : Int) - v.low) = (k : Int) := by omega
  simp only [hkey] at h
  unfold encodeEntriesSpec
  rw [h]
  by_cases hz : rev (v.low.toNat + k) = 0
  · simp [hz]
  · simp [hz]

/-- Reading the decode spec list at an index of the table gives `mapping[i]`. -/
theorem literalAt_decodeEntriesSpec (mapping : Nat → Nat) (n i : Nat) (hi : i < n) :
    literalAt (decodeEntriesSpec mapping n) i = mapping i := by
  have h := literalAt_map_filter (List.range n) (fun j => decide (mapping j ≠ 0))
    (fun (j : Nat) => j) mapping (fun a _ b _ hab => hab) i (List.mem_range.mpr hi)
  unfold decodeEntriesSpec
  rw [h]
  by_cases hz : mapping i = 0
  · simp [hz]
  · simp [hz]

theorem encodeEntriesSpec_keys (rev : Nat → Nat) (v : interval) (hlow : 0 ≤ v.low)
    (e : Int × Nat) (he : e ∈ encodeEntriesSpec rev v) :
    0 ≤ e.1 ∧ e.1 + 1 ≤ v.high - v.low := by
  obtain ⟨j, h1, h2, _, h4⟩ := (mem_encodeEntriesSpec rev v hlow e).mp he
  rw [h4]
  simp only
  omega

theorem encodeEntriesSpec_first {rev : Nat → Nat} {sep : Int} {v : interval}
    (hg : GoodInterval rev sep v) : (0, rev v.low.toNat) ∈ encodeEntriesSpec rev v := by
  have h0 := hg.low_nonneg
  have h1 := hg.low_lt_high
  refine (mem_encodeEntriesSpec rev v h0 _).mpr ⟨v.low.toNat, by omega, by omega,
    hg.low_nz _ (Int.toNat_of_nonneg h0), ?_⟩
  rw [Int.toNat_of_nonneg h0, sub_self]

theorem encodeEntriesSpec_last {rev : Nat → Nat} {sep : Int} {v : interval}
    (hg : GoodInterval rev sep v) :
    (v.high - v.low - 1, rev (v.high - 1).toNat) ∈ encodeEntriesSpec rev v := by
  have h0 := hg.low_nonneg
  have h1 := hg.low_lt_high
  have hcast : (((v.high - 1).toNat : Nat) : Int) = v.high - 1 := Int.toNat_of_nonneg (by omega)
  refine (mem_encodeEntriesSpec rev v h0 _).mpr ⟨(v.high - 1).toNat, by omega, by omega,
    hg.last_nz _ (by omega), ?_⟩
  rw [hcast]
  congr 1
  omega

theorem literalLen_encodeEntriesSpec {rev : Nat → Nat} {sep : Int} {v : interval}
    (hg : GoodInterval rev sep v) : literalLen (encodeEntriesSpec rev v) = v.high - v.low := by
  have h0 := hg.low_nonneg
  have h1 := hg.low_lt_high
  apply literalLen_eq _ _ (by omega)
  · exact fun e he => (encodeEntriesSpec_keys rev v h0 e he).2
  · exact ⟨_, encodeEntriesSpec_last hg, by simp only; omega⟩

/-! ## Swaps only reorder -/

theorem set_getElem_same (b : List interval) (i : Nat) (hi : i < b.length) :
    b.set i b[i] = b := by
  apply List.ext_getElem (by simp)
  intro n h1 h2
  rw [List.getElem_set]
  split
  · rename_i h
    subst h
    rfl
  · rfl

theorem swap_perm (b b1 : List interval) (i j : Nat)
    (h : byDecreasingLength.Swap b i j = some b1) : b1.Perm b := by
  unfold byDecreasingLength.Swap at h
  cases hx : b[i]? with
  | none => rw [hx] at h; simp at h
  | some x =>
    cases hy : b[j]? with
    | none => rw [hx, hy] at h; simp at h
    | some y =>
      rw [hx, hy] at h
      simp only [Option.some.injEq] at h
      subst h
      obtain ⟨hi, hxi⟩ := List.getElem?_eq_some_iff.mp hx
      obtain ⟨hj, hyj⟩ := List.getElem?_eq_some_iff.mp hy
      by_cases hij : i = j
      · subst hij
        rw [List.set_set, ← hxi, set_getElem_same b i hi]
      · rw [List.perm_iff_count]
        intro a
        have hj2 : j < (b.set i y).length := by rw [List.length_set]; exact hj
        rw [List.count_set x a (b.set i y) j hj2, List.count_set y a b i hi,
          List.getElem_set_ne hij, hxi, hyj]
        have hle : (if x == a then 1 else 0) ≤ b.count a := by
          rw [← hxi]
          exact List.boole_getElem_le_count a b i hi
        by_cases hxa : (x == a) = true <;> by_cases hya : (y == a) = true <;>
          simp only [hxa, hya, if_true, if_false, Bool.false_eq_true] at hle ⊢ <;> omega

theorem applySwaps_perm (ops : List (Nat × Nat)) : ∀ b b1 : List interval,
    applySwaps b ops = some b1 → b1.Perm b := by
  induction ops with
  | nil => intro b b1 h; simp only [applySwaps, Option.some.injEq] at h; rw [h]
  | cons op ops ih =>
    intro b b1 h
    obtain ⟨i, j⟩ := op
    rw [applySwaps] at h
    cases hs : byDecreasingLength.Swap b i j with
    | none => rw [hs] at h; simp at h
    | some b2 =>
      rw [hs] at h
      exact (ih b2 b1 h).trans (swap_perm b b2 i j hs)

/-- The contract on `Swap` calls gives the coarser contract used for the order. -/
theorem SwapSortContract.toSortContract {sortFn : List interval → List interval}
    (h : SwapSortContract sortFn) : SortContract byDecreasingLength.Less sortFn where
  perm := fun l => by
    obtain ⟨ops, hops⟩ := h.swaps l
    exact applySwaps_perm ops l _ hops
  ordered := h.ordered

theorem swap_cons_succ (x : interval) (b : List interval) (i j : Nat) :
    byDecreasingLength.Swap (x :: b) (i + 1) (j + 1) =
      (byDecreasingLength.Swap b i j).map (fun b1 => x :: b1) := by
  unfold byDecreasingLength.Swap
  simp only [List.getElem?_cons_succ]
  cases b[i]? with
  | none => rfl
  | some u =>
    cases b[j]? with
    | none => rfl
    | some w => rfl

theorem applySwaps_cons_shift (x : interval) (ops : List (Nat × Nat)) :
    ∀ b b1 : List interval, applySwaps b ops = some b1 →
      applySwaps (x :: b) (ops.map (fun op => (op.1 + 1, op.2 + 1))) = some (x :: b1) := by
  induction ops with
  | nil => intro b b1 h; simp only [applySwaps, Option.some.injEq] at h; rw [h]; rfl
  | cons op ops ih =>
    intro b b1 h
    obtain ⟨i, j⟩ := op
    rw [applySwaps] at h
    rw [List.map_cons, applySwaps, swap_cons_succ]
    cases hs : byDecreasingLength.Swap b i j with
    | none => rw [hs] at h; simp at h
    | some b2 =>
      rw [hs] at h
      exact ih b2 b1 h

theorem applySwaps_append (o1 : List (Nat × Nat)) : ∀ (b b1 b2 : List interval)
    (o2 : List (Nat × Nat)), applySwaps b o1 = some b1 → applySwaps b1 o2 = some b2 →
      applySwaps b (o1 ++ o2) = some b2 := by
  induction o1 with
  | nil =>
    intro b b1 b2 o2 h1 h2
    simp only [applySwaps, Option.some.injEq] at h1
    rw [h1]; exact h2
  | cons op o1 ih =>
    intro b b1 b2 o2 h1 h2
    obtain ⟨i, j⟩ := op
    rw [applySwaps] at h1
    rw [List.cons_append, applySwaps]
    cases hs : byDecreasingLength.Swap b i j with
    | none => rw [hs] at h1; simp at h1
    | some b3 =>
      rw [hs] at h1
      exact ih b3 b1 b2 o2 h1 h2

/-- Every reordering of a slice can be reached by `Swap` calls. -/
theorem perm_reachable {l1 l2 : List interval} (h : l1.Perm l2) :
    ∃ ops, applySwaps l1 ops = some l2 := by
  induction h with
  | nil => exact ⟨[], rfl⟩
  | cons x _ ih =>
    obtain ⟨ops, hops⟩ := ih
    exact ⟨_, applySwaps_cons_shift x ops _ _ hops⟩
  | swap x y l => exact ⟨[(0, 1)], by simp [applySwaps, byDecreasingLength.Swap]⟩
  | trans _ _ ih1 ih2 =>
    obtain ⟨o1, h1⟩ := ih1
    obtain ⟨o2, h2⟩ := ih2
    exact ⟨o1 ++ o2, applySwaps_append o1 _ _ _ o2 h1 h2⟩

theorem insertionSort_swapContract : SwapSortContract insertionSort where
  swaps := fun l => perm_reachable (insertionSort_contract.perm l).symm
  ordered := insertionSort_contract.ordered

/-! ## Packing is invertible -/

theorem unpack_pack (x : Nat) (hx : x < 19782) : unpack (pack x) = x := by
  rw [pack_eq x hx]
  have hm := Nat.mod_lt x (show 157 > 0 by decide)
  have hd : x / 157 < 126 := by omega
  have hdm := Nat.div_add_mod x 157
  unfold unpack leadByte trailByte
  by_cases h : x % 157 < 0x3f
  · rw [if_pos h]
    have h1 : ((0x81 + x / 157) * 256 + (x % 157 + 0x40)) / 256 = 0x81 + x / 157 := by omega
    have h2 : ((0x81 + x / 157) * 256 + (x % 157 + 0x40)) % 256 = x % 157 + 0x40 := by omega
    simp only [h1, h2]
    rw [if_pos (by omega)]
    omega
  · rw [if_neg h]
    have h1 : ((0x81 + x / 157) * 256 + (x % 157 + 0x62)) / 256 = 0x81 + x / 157 := by omega
    have h2 : ((0x81 + x / 157) * 256 + (x % 157 + 0x62)) % 256 = x % 157 + 0x62 := by omega
    simp only [h1, h2]
    rw [if_neg (by omega)]
    omega

theorem pack_ne_zero (x : Nat) (hx : x < 19782) : pack x ≠ 0 := by
  rw [pack_eq x hx]
  unfold leadByte
  omega

theorem pack_inj (x1 x2 : Nat) (h1 : x1 < 19782) (h2 : x2 < 19782) (h : pack x1 = pack x2) :
    x1 = x2 := by
  rw [← unpack_pack x1 h1, ← unpack_pack x2 h2, h]

/-! ## More on the ingestion loop -/

/-- Among the elements that satisfy `P` there is a last one. -/
theorem exists_last {α : Type} (P : α → Prop) (l : List α) :
    (∃ a ∈ l, P a) → ∃ pre a post, l = pre ++ a :: post ∧ P a ∧ ∀ b ∈ post, ¬ P b := by
  induction l with
  | nil => rintro ⟨a, ha, _⟩; simp at ha
  | cons c l ih =>
    rintro ⟨a, ha, hpa⟩
    by_cases hl : ∃ b ∈ l, P b
    · obtain ⟨pre, b, post, h1, h2, h3⟩ := ih hl
      exact ⟨c :: pre, b, post, by rw [h1]; rfl, h2, h3⟩
    · have hca : a = c := by
        rcases List.mem_cons.mp ha with h | h
        · exact h
        · exact absurd ⟨a, h, hpa⟩ hl
      rw [hca] at hpa
      exact ⟨[], c, l, rfl, hpa, fun b hb hpb => hl ⟨b, hb, hpb⟩⟩

theorem ingest_reverse_last (pre : List Pair) (p : Pair) (post : List Pair) (t t1 : Tables)
    (h : ingest t (pre ++ p :: post) = .ok t1) (hlast : ∀ q ∈ post, q.y ≠ p.y) :
    t1.reverse p.y = pack p.x := by
  obtain ⟨t2, _, h2⟩ := ingest_split pre p post _ _ h
  rw [ingest_reverse_frame p.y post _ _ h2 hlast]
  exact Function.update_same _ _ _

theorem ingest_mapping_last (pre : List Pair) (p : Pair) (post : List Pair) (t t1 : Tables)
    (h : ingest t (pre ++ p :: post) = .ok t1) (hlast : ∀ q ∈ post, q.x ≠ p.x) :
    t1.mapping p.x = p.y := by
  obtain ⟨t2, _, h2⟩ := ingest_split pre p post _ _ h
  rw [ingest_mapping_frame p.x post _ _ h2 hlast]
  exact Function.update_same _ _ _

/-- After ingestion into empty tables, the non-zero slots of `reverse` are the code points
that occur, and each holds the packed pointer of a pair carrying it. -/
theorem ingest_reverse_nonzero (ps : List Pair) (t : Tables)
    (h : ingest Tables.empty ps = .ok t) (y : Nat) :
    (t.reverse y ≠ 0 ↔ ∃ p ∈ ps, p.y = y) ∧
    (t.reverse y ≠ 0 → ∃ pre p post, ps = pre ++ p :: post ∧ p.y = y ∧
      (∀ q ∈ post, q.y ≠ y) ∧ t.reverse y = pack p.x) := by
  have hocc : (∃ p ∈ ps, p.y = y) → ∃ pre p post, ps = pre ++ p :: post ∧ p.y = y ∧
      (∀ q ∈ post, q.y ≠ y) ∧ t.reverse y = pack p.x := by
    intro hex
    obtain ⟨pre, p, post, h1, h2, h3⟩ := exists_last (fun q : Pair => q.y = y) ps hex
    refine ⟨pre, p, post, h1, h2, h3, ?_⟩
    subst h1
    have := ingest_reverse_last pre p post _ _ h (by rw [h2]; exact h3)
    rwa [h2] at this
  have hnz : t.reverse y ≠ 0 → ∃ p ∈ ps, p.y = y := by
    intro hne
    by_contra hnone
    exact hne (ingest_reverse_frame y ps _ _ h (fun q hq hqy => hnone ⟨q, hq, hqy⟩))
  refine ⟨⟨hnz, fun hex => ?_⟩, fun hne => hocc (hnz hne)⟩
  obtain ⟨pre, p, post, h1, _, _, h4⟩ := hocc hex
  rw [h4]
  exact pack_ne_zero p.x (ingest_eq_ok ps _ _ h p (by rw [h1]; simp)).1

/-- The bounds panic names a code point of the input that is outside `reverse`. -/
theorem ingest_indexPanic (ps : List Pair) : ∀ (t : Tables) (y : Nat),
    ingest t ps = .error (.indexPanic y) → 262144 ≤ y ∧ ∃ p ∈ ps, p.y = y ∧ p.x < 19782 := by
  induction ps with
  | nil => intro t y h; simp [ingest] at h
  | cons q ps ih =>
    intro t y h
    by_cases hqx : 19782 ≤ q.x
    · rw [ingest, ingestStep_outOfRange t q hqx] at h
      simp at h
    · by_cases hqy : 262144 ≤ q.y
      · rw [ingest] at h
        unfold ingestStep reverseLen at h
        rw [if_neg (by omega), if_pos (by omega)] at h
        simp only [Except.error.injEq, IngestError.indexPanic.injEq] at h
        exact ⟨by omega, q, List.mem_cons_self _ _, h, by omega⟩
      · rw [ingest_cons_ok t q ps (by omega) (by omega)] at h
        obtain ⟨h1, p, hp, h2⟩ := ih _ y h
        exact ⟨h1, p, List.mem_cons_of_mem _ hp, h2⟩

/-- All-zero tables give an empty scan. -/
theorem scanIntervals_zero (rev : Nat → Nat) (sep : Int) (n : Nat)
    (hz : ∀ i, i < n → rev i = 0) : scanIntervals rev sep n = [] := by
  have h : scanLoop rev sep n = scanInit :=
    scanLoop_zero_run rev sep 0 n (Nat.zero_le n) (fun k _ hk => hz k hk)
  unfold scanIntervals
  rw [h]
  rfl

theorem emitDecodeLoop_zero (mapping : Nat → Nat) (n : Nat)
    (hz : ∀ i, i < n → mapping i = 0) : emitDecodeLoop mapping n = [] := by
  induction n with
  | zero => rfl
  | succ n ih =>
    rw [emitDecodeLoop, if_neg (by simp [hz n (Nat.lt_succ_self n)])]
    exact ih (fun i hi => hz i (Nat.lt_succ_of_lt hi))

/-- Intervals inside the array are all printed without a panic. -/
theorem emitEncodeTables_eq (rev : Nat → Nat) (n : Nat) (vs : List interval)
    (hvs : ∀ v ∈ vs, 0 ≤ v.low ∧ v.high ≤ n) :
    emitEncodeTables rev n vs = some (vs.map (fun v => (v, encodeEntriesSpec rev v))) := by
  induction vs with
  | nil => rfl
  | cons v vs ih =>
    have hv := hvs v (List.mem_cons_self _ _)
    rw [emitEncodeTables, emitEncode_eq rev n v hv.1 hv.2,
      ih (fun w hw => hvs w (List.mem_cons_of_mem _ hw))]
    rfl

/-! ## The claims on emission, inversion and bounds -/

/-- C11 (encode sub-table emission): for every reverse table and every interval of the
sorted slice, the elements printed for its sub-table are exactly `(j - low, reverse[j])`
for `j` from `low` to `high - 1` with `reverse[j] != 0`; their offsets increase strictly,
and the literal they form has `high - low` slots whose slot `k` holds `reverse[low + k]`. -/
theorem encode_subtable_emission (sortFn : List interval → List interval)
    (hsort : SortContract byDecreasingLength.Less sortFn) (rev : Nat → Nat) (sep : Int)
    (n : Nat) (v : interval) (hv : v ∈ sortFn (scanIntervals rev sep n)) :
    emitEncode rev n v = some (encodeEntriesSpec rev v) ∧
    (encodeEntriesSpec rev v).Pairwise (fun a b => a.1 < b.1) ∧
    literalLen (encodeEntriesSpec rev v) = v.high - v.low ∧
    ∀ k : Nat, (k : Int) < v.high - v.low →
      literalAt (encodeEntriesSpec rev v) (k : Int) = rev (v.low.toNat + k) := by
  have hmem : v ∈ scanIntervals rev sep n := (hsort.perm _).mem_iff.mp hv
  obtain ⟨hg, hhigh⟩ := scanIntervals_good rev sep n v hmem
  exact ⟨emitEncode_eq rev n v hg.low_nonneg hhigh, encodeEntriesSpec_sorted rev v,
    literalLen_encodeEntriesSpec hg,
    fun k hk => literalAt_encodeEntriesSpec rev v hg.low_nonneg k hk⟩

/-- Witness for C11: the interval the scan finds for non-zero entries at 0 and 2
(separation 3, table of length 4), printed after insertion sort. -/
theorem encode_subtable_emission_witness :
    emitEncode (fun i => if i = 0 ∨ i = 2 then 7 else 0) 4 ⟨0, 3⟩ = some [(0, 7), (2, 7)] ∧
    literalLen (encodeEntriesSpec (fun i => if i = 0 ∨ i = 2 then 7 else 0) ⟨0, 3⟩) = 3 := by
  have h := encode_subtable_emission insertionSort insertionSort_contract
    (fun i => if i = 0 ∨ i = 2 then 7 else 0) 3 4 ⟨0, 3⟩ (by decide)
  exact ⟨h.1.trans (by decide), h.2.2.1⟩

/-- C12 (interval well-formedness): every interval produced by the scan has length at
least 1 and contains an index `j` with `low <= j < high` and `reverse[j] != 0`. -/
theorem interval_wellformed (rev : Nat → Nat) (sep : Int) (n : Nat) (v : interval)
    (hv : v ∈ scanIntervals rev sep n) :
    v.len ≥ 1 ∧ ∃ j : Nat, v.low ≤ j ∧ (j : Int) < v.high ∧ rev j ≠ 0 := by
  obtain ⟨hg, _⟩ := scanIntervals_good rev sep n v hv
  have h0 := hg.low_nonneg
  have h1 := hg.low_lt_high
  refine ⟨by unfold interval.len; omega, v.low.toNat, by omega, by omega, ?_⟩
  exact hg.low_nz _ (Int.toNat_of_nonneg h0)

/-- Witness for C12: the second interval of a scan with non-zero entries at 0, 5 and 6. -/
theorem interval_wellformed_witness :
    (⟨5, 7⟩ : interval).len ≥ 1 ∧
    ∃ j : Nat, (5 : Int) ≤ j ∧ (j : Int) < 7 ∧
      (fun i => if i = 0 ∨ i = 5 ∨ i = 6 then 1 else 0) j ≠ 0 :=
  interval_wellformed (fun i => if i = 0 ∨ i = 5 ∨ i = 6 then 1 else 0) 2 8 ⟨5, 7⟩ (by decide)

/-- C13 (discovery order and disjointness): the interval list built by the scan is
strictly increasing in `low`, and every interval ends at or before the start of each
later one, in particular of its successor. -/
theorem discovery_order (rev : Nat → Nat) (sep : Int) (n : Nat) :
    (scanIntervals rev sep n).Pairwise (fun a b => a.low < b.low ∧ a.high ≤ b.low) ∧
    (scanIntervals rev sep n).Chain' (fun a b => a.low < b.low ∧ a.high ≤ b.low) := by
  have h : (scanIntervals rev sep n).Pairwise (fun a b => a.low < b.low ∧ a.high ≤ b.low) := by
    have hchain := scanIntervals_chain rev sep n
    have hgood : ∀ v ∈ scanIntervals rev sep n, v.low < v.high := fun v hv =>
      (scanIntervals_good rev sep n v hv).1.low_lt_high
    refine hchain.imp_of_mem ?_
    intro a b ha _ hab
    have := hgood a ha
    have := hab.1
    exact ⟨by omega, by omega⟩
  exact ⟨h, h.chain'⟩

/-- C14 (degenerate input): the empty pair sequence leaves `mapping` and `reverse` all
zero; the scan of an all-zero table returns no interval, so the sorted slice is empty,
`numEncodeTables` is 0, no sub-table is printed and nothing panics; the decode literal has
no element. -/
theorem degenerate_input (sortFn : List interval → List interval)
    (hsort : SortContract byDecreasingLength.Less sortFn) :
    ingest Tables.empty [] = .ok Tables.empty ∧
    (∀ i, Tables.empty.mapping i = 0 ∧ Tables.empty.reverse i = 0) ∧
    (∀ (rev : Nat → Nat) (sep : Int) (n : Nat), (∀ i, i < n → rev i = 0) →
      scanIntervals rev sep n = [] ∧ sortFn (scanIntervals rev sep n) = []) ∧
    extractIntervals Tables.empty.reverse = [] ∧
    byDecreasingLength.Len (sortFn (extractIntervals Tables.empty.reverse)) = 0 ∧
    emitEncodeTables Tables.empty.reverse reverseLen
      (sortFn (extractIntervals Tables.empty.reverse)) = some [] ∧
    emitDecode Tables.empty.mapping = [] := by
  have hnil : sortFn [] = [] := List.perm_nil.mp (hsort.perm [])
  have hext : extractIntervals Tables.empty.reverse = [] :=
    scanIntervals_zero _ _ _ (fun _ _ => rfl)
  refine ⟨rfl, fun i => ⟨rfl, rfl⟩, fun rev sep n hz => ?_, hext, ?_, ?_, ?_⟩
  · rw [scanIntervals_zero rev sep n hz]
    exact ⟨rfl, hnil⟩
  · rw [hext, hnil]; rfl
  · rw [hext, hnil]; rfl
  · exact emitDecodeLoop_zero _ _ (fun _ _ => rfl)

/-- Witness for C14: the degenerate run sorted by insertion sort. -/
theorem degenerate_input_witness :
    extractIntervals Tables.empty.reverse = [] ∧
    byDecreasingLength.Len (insertionSort (extractIntervals Tables.empty.reverse)) = 0 ∧
    emitDecode Tables.empty.mapping = [] :=
  have h := degenerate_input insertionSort insertionSort_contract
  ⟨h.2.2.2.1, h.2.2.2.2.1, h.2.2.2.2.2.2⟩

/-- C15 (decode table emission): for every forward table the printed decode elements are
exactly the pairs `(i, mapping[i])` with `mapping[i] != 0`, in increasing order of `i`;
read back with absent keys as zero, the literal gives `mapping[i]` at every index of the
table and zero beyond it. -/
theorem decode_emission (mapping : Nat → Nat) (n : Nat) :
    emitDecodeLoop mapping n = decodeEntriesSpec mapping n ∧
    emitDecode mapping = decodeEntriesSpec mapping mappingLen ∧
    (emitDecodeLoop mapping n).Pairwise (fun a b => a.1 < b.1) ∧
    (∀ i, i < n → literalAt (emitDecodeLoop mapping n) i = mapping i) ∧
    (∀ i, n ≤ i → literalAt (emitDecodeLoop mapping n) i = 0) := by
  refine ⟨emitDecodeLoop_eq mapping n, emitDecodeLoop_eq mapping mappingLen, ?_, ?_, ?_⟩
  · rw [emitDecodeLoop_eq]
    unfold decodeEntriesSpec
    rw [List.pairwise_map]
    exact List.Pairwise.filter _ (List.pairwise_lt_range n)
  · intro i hi
    rw [emitDecodeLoop_eq]
    exact literalAt_decodeEntriesSpec mapping n i hi
  · intro i hi
    rw [emitDecodeLoop_eq]
    apply literalAt_absent
    intro e he
    unfold decodeEntriesSpec at he
    obtain ⟨j, hj, hje⟩ := List.mem_map.mp he
    have := List.mem_range.mp (List.mem_filter.mp hj).1
    rw [← hje]
    simp only
    omega

/-- C16 (packing is non-zero and injective): for pointers below 19782 the packed value is
not zero, the recovery formula returns the pointer, and equal packed values come from
equal pointers; after ingesting an accepted input, `reverse[y]` is non-zero exactly for
the code points `y` that occur in the input. -/
theorem pack_injective (x1 x2 : Nat) (h1 : x1 < 19782) (h2 : x2 < 19782) (ps : List Pair)
    (hx : ∀ p ∈ ps, p.x < 19782) (hy : ∀ p ∈ ps, p.y < 262144) :
    pack x1 ≠ 0 ∧ unpack (pack x1) = x1 ∧ (pack x1 = pack x2 → x1 = x2) ∧
    ∃ t, ingest Tables.empty ps = .ok t ∧ ∀ y, t.reverse y ≠ 0 ↔ ∃ p ∈ ps, p.y = y := by
  obtain ⟨t, ht⟩ := ingest_ok ps Tables.empty hx hy
  exact ⟨pack_ne_zero x1 h1, unpack_pack x1 h1, pack_inj x1 x2 h1 h2, t, ht,
    fun y => (ingest_reverse_nonzero ps t ht y).1⟩

/-- Witness for C16: the two pointers of U+8005 and the duplicated input of the source
comment. -/
theorem pack_injective_witness :
    pack 2148 ≠ 0 ∧ unpack (pack 2148) = 2148 ∧ (pack 2148 = pack 6543 → 2148 = 6543) ∧
    ∃ t, ingest Tables.empty [⟨2148, 0x8005⟩, ⟨6543, 0x8005⟩] = .ok t ∧
      ∀ y, t.reverse y ≠ 0 ↔ ∃ p ∈ [(⟨2148, 0x8005⟩ : Pair), ⟨6543, 0x8005⟩], p.y = y :=
  pack_injective 2148 6543 (by decide) (by decide) [⟨2148, 0x8005⟩, ⟨6543, 0x8005⟩]
    (by decide) (by decide)

/-- C17 (encode/decode consistency): for every accepted input in which no pointer occurs
twice, and every code point `y` with `reverse[y] != 0`, the pointer recovered from
`reverse[y]` is below 19782, packs to `reverse[y]`, and `mapping` sends it back to `y`. -/
theorem encode_decode_consistent (ps : List Pair) (hx : ∀ p ∈ ps, p.x < 19782)
    (hy : ∀ p ∈ ps, p.y < 262144) (hnodup : (ps.map Pair.x).Nodup) :
    ∃ t, ingest Tables.empty ps = .ok t ∧
      ∀ y, t.reverse y ≠ 0 →
        unpack (t.reverse y) < 19782 ∧ pack (unpack (t.reverse y)) = t.reverse y ∧
        t.mapping (unpack (t.reverse y)) = y := by
  obtain ⟨t, ht⟩ := ingest_ok ps Tables.empty hx hy
  refine ⟨t, ht, fun y hne => ?_⟩
  obtain ⟨pre, p, post, hps, hpy, _, hrev⟩ := (ingest_reverse_nonzero ps t ht y).2 hne
  have hpx : p.x < 19782 := hx p (by rw [hps]; simp)
  rw [hrev, unpack_pack p.x hpx]
  refine ⟨hpx, rfl, ?_⟩
  subst hps
  rw [← hpy]
  apply ingest_mapping_last pre p post _ _ ht
  intro q hq hqx
  rw [List.map_append, List.map_cons] at hnodup
  have hnd := (List.nodup_append.mp hnodup).2.1
  exact (List.nodup_cons.mp hnd).1 (by rw [← hqx]; exact List.mem_map_of_mem _ hq)

/-- Witness for C17: the three records of the round-trip scenario at code point 0x4E02. -/
theorem encode_decode_consistent_witness :
    ∃ t, ingest Tables.empty [⟨0, 0x4E00⟩, ⟨1, 0x4E01⟩, ⟨200, 0x4E02⟩] = .ok t ∧
      ∀ y, t.reverse y ≠ 0 →
        unpack (t.reverse y) < 19782 ∧ pack (unpack (t.reverse y)) = t.reverse y ∧
        t.mapping (unpack (t.reverse y)) = y :=
  encode_decode_consistent [⟨0, 0x4E00⟩, ⟨1, 0x4E01⟩, ⟨200, 0x4E02⟩] (by decide) (by decide)
    (by decide)

/-- C18 (tight interval bounds): for every interval produced by the scan, `reverse[low]`
and `reverse[high - 1]` are non-zero; the literal printed for it has an element at offset
0 and one at offset `high - low - 1`, no offset outside that range, and so `high - low`
slots. -/
theorem tight_bounds (rev : Nat → Nat) (sep : Int) (n : Nat) (v : interval)
    (hv : v ∈ scanIntervals rev sep n) :
    rev v.low.toNat ≠ 0 ∧ rev (v.high - 1).toNat ≠ 0 ∧
    emitEncode rev n v = some (encodeEntriesSpec rev v) ∧
    (0, rev v.low.toNat) ∈ encodeEntriesSpec rev v ∧
    (v.high - v.low - 1, rev (v.high - 1).toNat) ∈ encodeEntriesSpec rev v ∧
    (∀ e ∈ encodeEntriesSpec rev v, 0 ≤ e.1 ∧ e.1 ≤ v.high - v.low - 1) ∧
    literalLen (encodeEntriesSpec rev v) = v.high - v.low := by
  obtain ⟨hg, hhigh⟩ := scanIntervals_good rev sep n v hv
  have h0 := hg.low_nonneg
  have h1 := hg.low_lt_high
  refine ⟨hg.low_nz _ (Int.toNat_of_nonneg h0),
    hg.last_nz _ (by rw [Int.toNat_of_nonneg (by omega)]; omega),
    emitEncode_eq rev n v h0 hhigh, encodeEntriesSpec_first hg, encodeEntriesSpec_last hg,
    fun e he => ?_, literalLen_encodeEntriesSpec hg⟩
  have := encodeEntriesSpec_keys rev v h0 e he
  omega

/-- Witness for C18: the interval `[0, 3)` found for non-zero entries at 0 and 2. -/
theorem tight_bounds_witness :
    emitEncode (fun i => if i = 0 ∨ i = 2 then 7 else 0) 4 ⟨0, 3⟩ = some [(0, 7), (2, 7)] ∧
    literalLen (encodeEntriesSpec (fun i => if i = 0 ∨ i = 2 then 7 else 0) ⟨0, 3⟩) = 3 - 0 := by
  have h := tight_bounds (fun i => if i = 0 ∨ i = 2 then 7 else 0) 3 4 ⟨0, 3⟩ (by decide)
  exact ⟨h.2.2.1.trans (by decide), h.2.2.2.2.2.2⟩

/-- C19 (sorting only reorders): a sort that changes the slice only through
`byDecreasingLength.Swap` returns a permutation of it, with every interval as often as
before and the same count `numEncodeTables`; hence coverage, the gap property and
well-formedness of the scanned intervals hold for the emitted ones as well. -/
theorem sorting_only_reorders (sortFn : List interval → List interval)
    (hsort : SwapSortContract sortFn) (ivs : List interval) (rev : Nat → Nat) (sep : Int)
    (n : Nat) :
    (sortFn ivs).Perm ivs ∧ (∀ v, (sortFn ivs).count v = ivs.count v) ∧
    byDecreasingLength.Len (sortFn ivs) = byDecreasingLength.Len ivs ∧
    (∀ i : Nat, i < n → rev i ≠ 0 →
      (sortFn (scanIntervals rev sep n)).countP (fun iv => iv.contains i) = 1) ∧
    (∀ a b, a ∈ sortFn (scanIntervals rev sep n) → b ∈ sortFn (scanIntervals rev sep n) →
      a.low < b.low → b.low - a.high ≥ sep) ∧
    (∀ v ∈ sortFn (scanIntervals rev sep n),
      v.len ≥ 1 ∧ ∃ j : Nat, v.low ≤ j ∧ (j : Int) < v.high ∧ rev j ≠ 0) := by
  have hperm : ∀ l, (sortFn l).Perm l := hsort.toSortContract.perm
  have hmem : ∀ v, v ∈ sortFn (scanIntervals rev sep n) → v ∈ scanIntervals rev sep n :=
    fun v hv => (hperm _).mem_iff.mp hv
  refine ⟨hperm ivs, fun v => (hperm ivs).count_eq v, (hperm ivs).length_eq, ?_, ?_, ?_⟩
  · intro i hi hnz
    rw [(hperm _).countP_eq]
    apply countP_eq_one_of_pairwise _ (Apart sep) _ _ (scanIntervals_chain rev sep n)
    · obtain ⟨iv, hiv, h⟩ := scanIntervals_cover rev sep n i hi hnz
      exact ⟨iv, hiv, by simp [interval.contains, h]⟩
    · intro a b hab ⟨ha, hb⟩
      simp only [interval.contains, decide_eq_true_eq] at ha hb
      have := hab.1
      omega
  · intro a b ha hb hlt
    have hne : a ≠ b := fun h => by rw [h] at hlt; exact lt_irrefl _ hlt
    rcases scanIntervals_apart rev sep n a b (hmem a ha) (hmem b hb) hne with h | h
    · exact h.2
    · have h1 := (scanIntervals_good rev sep n b (hmem b hb)).1.low_lt_high
      have h2 := h.1
      omega
  · intro v hv
    obtain ⟨hg, _⟩ := scanIntervals_good rev sep n v (hmem v hv)
    have h0 := hg.low_nonneg
    have h1 := hg.low_lt_high
    refine ⟨by unfold interval.len; omega, v.low.toNat, by omega, by omega, ?_⟩
    exact hg.low_nz _ (Int.toNat_of_nonneg h0)

/-- Witness for C19: insertion sort of the two intervals found for non-zero entries at
0, 5 and 6. -/
theorem sorting_only_reorders_witness :
    (insertionSort [⟨0, 1⟩, ⟨5, 7⟩]).Perm [⟨0, 1⟩, ⟨5, 7⟩] ∧
    insertionSort [⟨0, 1⟩, ⟨5, 7⟩] = [⟨5, 7⟩, ⟨0, 1⟩] ∧
    byDecreasingLength.Len (insertionSort [⟨0, 1⟩, ⟨5, 7⟩]) = 2 :=
  have h := sorting_only_reorders insertionSort insertionSort_swapContract [⟨0, 1⟩, ⟨5, 7⟩]
    (fun i => if i = 0 ∨ i = 5 ∨ i = 6 then 1 else 0) 2 8
  ⟨h.1, by decide, h.2.2.1⟩

/-- C20 (in-bounds access): for an input whose pairs all have `x < 19782` and
`y < 262144`, ingestion writes `mapping` below 65536 and `reverse` below 262144 and ends
normally, every interval of the sorted slice satisfies `0 <= low < high <= 262144`, and
the emission of all sub-tables reads `reverse` inside its bounds; on any input, the
bounds panic of ingestion names a pair with `y >= 262144`. -/
theorem in_bounds (sortFn : List interval → List interval)
    (hsort : SortContract byDecreasingLength.Less sortFn) (ps : List Pair) :
    ((∀ p ∈ ps, p.x < 19782 ∧ p.y < 262144) →
      ∃ t, ingest Tables.empty ps = .ok t ∧
        (∀ p ∈ ps, p.x < mappingLen ∧ p.y < reverseLen) ∧
        (∀ v ∈ sortFn (extractIntervals t.reverse),
          0 ≤ v.low ∧ v.low < v.high ∧ v.high ≤ 262144) ∧
        emitEncodeTables t.reverse reverseLen (sortFn (extractIntervals t.reverse)) =
          some ((sortFn (extractIntervals t.reverse)).map
            (fun v => (v, encodeEntriesSpec t.reverse v)))) ∧
    (∀ y, ingest Tables.empty ps = .error (.indexPanic y) →
      262144 ≤ y ∧ ∃ p ∈ ps, p.y = y ∧ p.x < 19782) := by
  refine ⟨fun hps => ?_, fun y h => ingest_indexPanic ps _ y h⟩
  obtain ⟨t, ht⟩ := ingest_ok ps Tables.empty (fun p hp => (hps p hp).1)
    (fun p hp => (hps p hp).2)
  have hiv : ∀ v ∈ sortFn (extractIntervals t.reverse),
      0 ≤ v.low ∧ v.low < v.high ∧ v.high ≤ 262144 := by
    intro v hv
    have hmem : v ∈ scanIntervals t.reverse separation reverseLen :=
      (hsort.perm _).mem_iff.mp hv
    obtain ⟨hg, hhigh⟩ := scanIntervals_good _ _ _ v hmem
    exact ⟨hg.low_nonneg, hg.low_lt_high, hhigh⟩
  refine ⟨t, ht, fun p hp => ?_, hiv, ?_⟩
  · have := hps p hp
    unfold mappingLen reverseLen
    omega
  · exact emitEncodeTables_eq _ _ _ (fun v hv => ⟨(hiv v hv).1, (hiv v hv).2.2⟩)

/-- Witness for C20: the pair `(0, 0x40000)` is outside `reverse`, and the record
`(7, 0x4E00)` is inside both tables. -/
theorem in_bounds_witness :
    ((∃ t, ingest Tables.empty [⟨7, 0x4E00⟩] = .ok t) ∧ (7 < mappingLen ∧ 0x4E00 < reverseLen)) ∧
    (ingest Tables.empty [⟨0, 0x40000⟩] = .error (.indexPanic 0x40000) ∧ 262144 ≤ 0x40000) := by
  constructor
  · obtain ⟨t, ht, hb, _⟩ := (in_bounds insertionSort insertionSort_contract
      [⟨7, 0x4E00⟩]).1 (by decide)
    exact ⟨⟨t, ht⟩, hb ⟨7, 0x4E00⟩ (List.mem_singleton.mpr rfl)⟩
  · exact ⟨rfl, ((in_bounds insertionSort insertionSort_contract [⟨0, 0x40000⟩]).2
      0x40000 rfl).1⟩

end Maketables
